import Mathlib

/-!
# sigfit: the Stan-generated model class `model_sigfit` (src/include/models.hpp)

A shallow embedding of the model class and of the Stan library routines it calls,
followed by theorems about construction, the simplex transform, the forward model,
the log-probability evaluator and the parameter-name lists.

Number model.  A C++ `double` is a value of `Val K`: either a finite number of an
ordered field `K` (exact arithmetic, no rounding, no overflow) or one of the IEEE-754
special values `+inf`, `-inf`, `NaN`.  Special values arise from operations only
(`log 0`, division by zero, ...).  Input data and user-supplied numbers are finite.
The transcendental functions of libm are supplied as a parameter `Libm K`.
-/

namespace Sigfit

/-- The libm functions used on finite arguments: `exp`, `log` (used on positive
arguments only) and `lgamma` (used on positive arguments only). -/
structure Libm (K : Type) where
  exp : K → K
  log : K → K
  lgamma : K → K

/-- A `double`: a finite number, `+inf`, `-inf` or `NaN`. -/
inductive Val (K : Type) where
  | fin (x : K)
  | pinf
  | ninf
  | nan
deriving DecidableEq

/-- Exceptions thrown by the model and by the Stan routines.  `out_of_range` stands for an
unchecked read past the end of a `std::vector` (undefined behaviour in C++). -/
inductive Err where
  | domain_error
  | invalid_argument
  | runtime_error
  | out_of_range
deriving DecidableEq

section Arithmetic

variable {K : Type} [LinearOrderedField K]

/-- The infinity carrying the sign of `s`; `NaN` when `s = 0` (as in `0 * inf`, `0 / 0`). -/
def Val.infOfSign (s : K) : Val K :=
  if 0 < s then .pinf else if s < 0 then .ninf else .nan

/-- IEEE addition. -/
def Val.add : Val K → Val K → Val K
  | .fin a, .fin b => .fin (a + b)
  | .fin _, .pinf => .pinf
  | .fin _, .ninf => .ninf
  | .pinf, .fin _ => .pinf
  | .pinf, .pinf => .pinf
  | .pinf, .ninf => .nan
  | .ninf, .fin _ => .ninf
  | .ninf, .ninf => .ninf
  | .ninf, .pinf => .nan
  | .nan, _ => .nan
  | .fin _, .nan => .nan
  | .pinf, .nan => .nan
  | .ninf, .nan => .nan

/-- IEEE negation. -/
def Val.neg : Val K → Val K
  | .fin a => .fin (-a)
  | .pinf => .ninf
  | .ninf => .pinf
  | .nan => .nan

/-- IEEE subtraction. -/
def Val.sub (a b : Val K) : Val K := Val.add a (Val.neg b)

/-- IEEE multiplication. -/
def Val.mul : Val K → Val K → Val K
  | .fin a, .fin b => .fin (a * b)
  | .fin a, .pinf => Val.infOfSign a
  | .fin a, .ninf => Val.infOfSign (-a)
  | .pinf, .fin b => Val.infOfSign b
  | .ninf, .fin b => Val.infOfSign (-b)
  | .pinf, .pinf => .pinf
  | .pinf, .ninf => .ninf
  | .ninf, .pinf => .ninf
  | .ninf, .ninf => .pinf
  | .nan, _ => .nan
  | .fin _, .nan => .nan
  | .pinf, .nan => .nan
  | .ninf, .nan => .nan

/-- IEEE division (a zero divisor is taken as `+0`). -/
def Val.div : Val K → Val K → Val K
  | .fin a, .fin b => if b = 0 then Val.infOfSign a else .fin (a / b)
  | .fin _, .pinf => .fin 0
  | .fin _, .ninf => .fin 0
  | .pinf, .fin b => if b < 0 then .ninf else .pinf
  | .ninf, .fin b => if b < 0 then .pinf else .ninf
  | .pinf, .pinf => .nan
  | .pinf, .ninf => .nan
  | .ninf, .pinf => .nan
  | .ninf, .ninf => .nan
  | .nan, _ => .nan
  | .fin _, .nan => .nan
  | .pinf, .nan => .nan
  | .ninf, .nan => .nan

/-- The comparison `a <= b` of two doubles (false when either is `NaN`). -/
def Val.le : Val K → Val K → Bool
  | .fin a, .fin b => decide (a ≤ b)
  | .fin _, .pinf => true
  | .ninf, .fin _ => true
  | .ninf, .ninf => true
  | .ninf, .pinf => true
  | .pinf, .pinf => true
  | _, _ => false

/-- The comparison `a < b` of two doubles (false when either is `NaN`). -/
def Val.lt : Val K → Val K → Bool
  | .fin a, .fin b => decide (a < b)
  | .fin _, .pinf => true
  | .ninf, .fin _ => true
  | .ninf, .pinf => true
  | _, _ => false

/-- The comparison `a == b` of two doubles (false when either is `NaN`). -/
def Val.eqb : Val K → Val K → Bool
  | .fin a, .fin b => decide (a = b)
  | .pinf, .pinf => true
  | .ninf, .ninf => true
  | _, _ => false

/-- The C function `fabs`. -/
def Val.fabs : Val K → Val K
  | .fin a => .fin |a|
  | .pinf => .pinf
  | .ninf => .pinf
  | .nan => .nan

/-- The C function `exp`. -/
def Val.exp (P : Libm K) : Val K → Val K
  | .fin a => .fin (P.exp a)
  | .pinf => .pinf
  | .ninf => .fin 0
  | .nan => .nan

/-- The C function `log`: `log 0 = -inf`, `NaN` on negative arguments. -/
def Val.log (P : Libm K) : Val K → Val K
  | .fin a => if 0 < a then .fin (P.log a) else if a = 0 then .ninf else .nan
  | .pinf => .pinf
  | .ninf => .nan
  | .nan => .nan

/-- The function `lgamma`.  The model only calls it on positive arguments (the
concentrations are checked positive, the counts non-negative); the pole at `0` gives
`+inf`, and negative arguments, which are never passed, are mapped to `+inf` too. -/
def Val.lgamma (P : Libm K) : Val K → Val K
  | .fin a => if 0 < a then .fin (P.lgamma a) else .pinf
  | .pinf => .pinf
  | .ninf => .pinf
  | .nan => .nan

/-- The sum of a sequence of doubles, accumulated from `0.0`
(`Eigen::sum()`, `std::accumulate`). -/
def vsum (xs : List (Val K)) : Val K :=
  xs.foldl Val.add (.fin 0)

/-- Conversion of a C++ `int` to `double`. -/
def ofInt (n : Int) : Val K := .fin (n : K)

end Arithmetic

section StanMath

variable {K : Type} [LinearOrderedField K]

/-- Stan Math `inv_logit(a) = 1.0 / (1.0 + exp(-a))`. -/
def inv_logit (P : Libm K) (a : Val K) : Val K :=
  Val.div (.fin 1) (Val.add (.fin 1) (Val.exp P (Val.neg a)))

/-- Stan Math `logit(a) = log(a / (1.0 - a))`. -/
def logit (P : Libm K) (a : Val K) : Val K :=
  Val.log P (Val.div a (Val.sub (.fin 1) a))

/-- The function `log1p(x) = log(1 + x)`. -/
def log1p (P : Libm K) (x : Val K) : Val K :=
  Val.log P (Val.add (.fin 1) x)

/-- Stan Math `log1p_exp(a)`: `a + log1p(exp(-a))` when `a > 0`, else `log1p(exp(a))`. -/
def log1p_exp (P : Libm K) (a : Val K) : Val K :=
  if Val.lt (.fin 0) a then Val.add a (log1p P (Val.exp P (Val.neg a)))
  else log1p P (Val.exp P a)

/-- Stan Math `multiply_log(a, b)`: `0` when both are zero, else `a * log(b)`. -/
def multiply_log (P : Libm K) (a b : Val K) : Val K :=
  if Val.eqb b (.fin 0) && Val.eqb a (.fin 0) then .fin 0 else Val.mul a (Val.log P b)

/-- The constant `CONSTRAINT_TOLERANCE = 1E-8` of Stan Math. -/
def CONSTRAINT_TOLERANCE : K := 1 / 100000000

/-- Stan Math `check_simplex`: the vector is non-empty, its sum is within
`CONSTRAINT_TOLERANCE` of 1, and every entry is `>= 0`. -/
def check_simplex (theta : List (Val K)) : Except Err Unit :=
  if theta.length = 0 then .error .invalid_argument
  else if !(Val.le (Val.fabs (Val.sub (.fin 1) (vsum theta))) (.fin CONSTRAINT_TOLERANCE)) then
    .error .domain_error
  else if theta.all (fun t => Val.le (.fin 0) t) then .ok ()
  else .error .domain_error

/-- Stan Math `check_positive` on a vector: every entry is `> 0`. -/
def check_positive (xs : List (Val K)) : Except Err Unit :=
  if xs.all (fun x => Val.lt (.fin 0) x) then .ok () else .error .domain_error

/-- Stan Math `check_nonnegative` on a vector of ints: every entry is `>= 0`. -/
def check_nonnegative (ns : List Int) : Except Err Unit :=
  if ns.all (fun n => decide (0 ≤ n)) then .ok () else .error .domain_error

/-- Stan Math `check_size_match` / `check_consistent_sizes`. -/
def check_size_match (i j : Nat) : Except Err Unit :=
  if i = j then .ok () else .error .invalid_argument

/-- The loop of Stan Math `simplex_constrain(y)` (stick breaking): at position `k` the
remaining stick is split by `z_k = inv_logit(y(k) - log(Km1 - k))`; `Km1 - k` is the
number of entries of `y` from position `k` on. -/
def simplex_constrain_loop (P : Libm K) : Val K → List (Val K) → List (Val K)
  | stick_len, [] => [stick_len]
  | stick_len, y_k :: rest =>
    let z_k := inv_logit P (Val.sub y_k (Val.log P (ofInt ((rest.length + 1 : Nat) : Int))))
    let x_k := Val.mul stick_len z_k
    x_k :: simplex_constrain_loop P (Val.sub stick_len x_k) rest

/-- Stan Math `simplex_constrain(y)`: a vector of `y.size() + 1` entries. -/
def simplex_constrain (P : Libm K) (y : List (Val K)) : List (Val K) :=
  simplex_constrain_loop P (.fin 1) y

/-- The loop of Stan Math `simplex_constrain(y, lp)`: as `simplex_constrain_loop`, and
at each position `lp += log(stick_len); lp -= log1p_exp(-adj_y_k); lp -= log1p_exp(adj_y_k)`
with `adj_y_k = y(k) + (-log(Km1 - k))`.  Returns the vector and the final `lp`. -/
def simplex_constrain_lp_loop (P : Libm K) :
    Val K → Val K → List (Val K) → List (Val K) × Val K
  | stick_len, lp, [] => ([stick_len], lp)
  | stick_len, lp, y_k :: rest =>
    let eq_share := Val.neg (Val.log P (ofInt ((rest.length + 1 : Nat) : Int)))
    let adj_y_k := Val.add y_k eq_share
    let z_k := inv_logit P adj_y_k
    let x_k := Val.mul stick_len z_k
    let lp1 := Val.add lp (Val.log P stick_len)
    let lp2 := Val.sub lp1 (log1p_exp P (Val.neg adj_y_k))
    let lp3 := Val.sub lp2 (log1p_exp P adj_y_k)
    let r := simplex_constrain_lp_loop P (Val.sub stick_len x_k) lp3 rest
    (x_k :: r.1, r.2)

/-- Stan Math `simplex_constrain(y, lp)`: the simplex vector and the incremented `lp`. -/
def simplex_constrain_lp (P : Libm K) (y : List (Val K)) (lp : Val K) :
    List (Val K) × Val K :=
  simplex_constrain_lp_loop P (.fin 1) lp y

/-- The loop of Stan Math `simplex_free(x)`, which runs from the last entry to the first:
`stick_len` starts as `x(Km1)`; for `k = Km1-1, ..., 0`: `stick_len += x(k)`,
`z_k = x(k) / stick_len`, `y(k) = logit(z_k) + log(Km1 - k)`.  Returns the entries of `y`
for the positions of the argument and the stick length reached. -/
def simplex_free_loop (P : Libm K) : List (Val K) → List (Val K) × Val K
  | [] => ([], .fin 0)
  | [x_last] => ([], x_last)
  | x_k :: rest =>
    let r := simplex_free_loop P rest
    let stick_len := Val.add r.2 x_k
    let z_k := Val.div x_k stick_len
    let y_k := Val.add (logit P z_k) (Val.log P (ofInt ((rest.length : Nat) : Int)))
    (y_k :: r.1, stick_len)

/-- Stan Math `simplex_free(x)`: checks `x` is a simplex, then inverts the stick breaking. -/
def simplex_free (P : Libm K) (x : List (Val K)) : Except Err (List (Val K)) := do
  check_simplex x
  pure (simplex_free_loop P x).1

/-- Stan Math `include_summand<propto, T...>::value`: a term is kept unless `propto` is
set and every listed type is a constant (`double`, `int`); `anyVar` says that some
listed type is an autodiff variable. -/
def include_summand (propto anyVar : Bool) : Bool :=
  !propto || anyVar

/-- Stan Math `dirichlet_log<propto>(theta, alpha)` with `alpha` of type `double`;
`thetaVar` says that the scalar type of `theta` is an autodiff variable. -/
def dirichlet_log (P : Libm K) (propto thetaVar : Bool)
    (theta alpha : List (Val K)) : Except Err (Val K) := do
  check_size_match theta.length alpha.length
  check_positive alpha
  check_simplex theta
  let lp0 : Val K := .fin 0
  let lp1 :=
    if include_summand propto false then
      alpha.foldl (fun lp a => Val.sub lp (Val.lgamma P a))
        (Val.add lp0 (Val.lgamma P (vsum alpha)))
    else lp0
  let lp2 :=
    if include_summand propto thetaVar then
      (List.zipWith (fun a t => multiply_log P (Val.sub a (.fin 1)) t) alpha theta).foldl
        Val.add lp1
    else lp1
  pure lp2

/-- Stan Math `multinomial_log<propto>(ns, theta)`; `thetaVar` says that the scalar type
of `theta` is an autodiff variable. -/
def multinomial_log (P : Libm K) (propto thetaVar : Bool)
    (ns : List Int) (theta : List (Val K)) : Except Err (Val K) := do
  check_nonnegative ns
  check_simplex theta
  check_size_match ns.length theta.length
  let lp0 : Val K := .fin 0
  let lp1 :=
    if include_summand propto false then
      let sum := ns.foldl (fun s n => Val.add s (ofInt n)) (.fin 1)
      Val.add (ns.foldl (fun lp n => Val.sub lp (Val.lgamma P (Val.add (ofInt n) (.fin 1)))) lp0)
        (Val.lgamma P sum)
    else lp0
  let lp2 :=
    if include_summand propto thetaVar then
      (List.zipWith (fun n t => multiply_log P (ofInt n) t) ns theta).foldl Val.add lp1
    else lp1
  pure lp2

/-- An `Eigen::Matrix<double, Dynamic, Dynamic>` with finite entries: its dimensions and
its coefficients `coeff m n` (row `m`, column `n`). -/
structure matrix_d (K : Type) where
  rows : Nat
  cols : Nat
  coeff : Nat → Nat → K

/-- Assignment `M(m, n) = v`. -/
def matrix_d.set (M : matrix_d K) (m n : Nat) (v : K) : matrix_d K :=
  { M with coeff := fun i j => if i = m ∧ j = n then v else M.coeff i j }

/-- Stan Math `multiply(m1, m2)` of a matrix and a column vector: `check_multiplicable`
(positive sizes, columns of `m1` = rows of `m2`), then the product. -/
def multiply (M : matrix_d K) (v : List (Val K)) : Except Err (List (Val K)) :=
  if M.rows = 0 then .error .invalid_argument
  else if M.cols ≠ v.length then .error .invalid_argument
  else if M.cols = 0 then .error .invalid_argument
  else .ok ((List.range M.rows).map (fun i =>
    vsum (List.zipWith (fun j v_j => Val.mul (.fin (M.coeff i j)) v_j) (List.range M.cols) v)))

/-- Stan Math `divide(m, c)`: every entry divided by the scalar. -/
def divide (v : List (Val K)) (c : Val K) : List (Val K) :=
  v.map (fun x => Val.div x c)

end StanMath

section StanReader

variable {K : Type} [LinearOrderedField K]

/-- Conversion of a C++ `int` to `size_t` (64 bits): a non-negative value is kept, a
negative one wraps around by `2^64`. -/
def to_size_t (i : Int) : Nat := if 0 ≤ i then i.toNat else (i + 2 ^ 64).toNat

/-- The `size_t` subtraction `k - 1`, which wraps around at `0`. -/
def size_t_pred (k : Nat) : Nat := if k = 0 then 2 ^ 64 - 1 else k - 1

/-- The unchecked read `v[pos]` of a `std::vector`. -/
def read_at {α : Type} (v : List α) (pos : Nat) : Except Err α :=
  match v[pos]? with
  | some x => .ok x
  | none => .error .out_of_range

/-- The loop `for (k = 0; k < n; ++k) out.push_back(v[k])`, by recursion on the number
of iterations: iteration `n` follows the first `n` ones. -/
def copy_first {α : Type} : Nat → List α → Except Err (List α)
  | 0, _ => .ok []
  | n + 1, v => do
    let out ← copy_first n v
    let x ← read_at v n
    pure (out ++ [x])

/-- The interface `stan::io::var_context`: named real and integer variables with their
dimensions. -/
structure var_context (K : Type) where
  contains_r : String → Bool
  vals_r : String → List K
  dims_r : String → List Nat
  contains_i : String → Bool
  vals_i : String → List Int
  dims_i : String → List Nat

/-- The method `var_context::validate_dims(stage, name, base_type, dims_declared)`: the
variable exists (as an integer variable when `base_type` is `"int"`) and its dimensions
are the declared ones; otherwise `std::runtime_error`. -/
def var_context.validate_dims (ctx : var_context K) (name base_type : String)
    (dims_declared : List Nat) : Except Err Unit :=
  if base_type = "int" ∧ ctx.contains_i name = false then .error .runtime_error
  else if base_type ≠ "int" ∧ ctx.contains_r name = false then .error .runtime_error
  else if (ctx.dims_r name).length ≠ dims_declared.length then .error .runtime_error
  else if ctx.dims_r name ≠ dims_declared then .error .runtime_error
  else .ok ()

/-- Stan `validate_non_negative_index(var_name, expr, val)`: `std::invalid_argument`
when `val < 0`. -/
def validate_non_negative_index (val : Int) : Except Err Unit :=
  if val < 0 then .error .invalid_argument else .ok ()

/-- Stan Math `check_greater_or_equal(function, name, y, low)` on an `int`. -/
def check_greater_or_equal_int (y low : Int) : Except Err Unit :=
  if low ≤ y then .ok () else .error .domain_error

/-- Stan Math `check_greater_or_equal(function, name, y, low)` on a vector. -/
def check_greater_or_equal_vec (y : List K) (low : K) : Except Err Unit :=
  if y.all (fun a => decide (low ≤ a)) then .ok () else .error .domain_error

/-- The method `stan::io::reader::vector(m)`: the next `m` scalars from position `pos`,
without a bounds check. -/
def reader_vector (data_r : List (Val K)) (pos m : Nat) : Except Err (List (Val K)) :=
  if pos + m ≤ data_r.length then .ok ((data_r.drop pos).take m) else .error .out_of_range

/-- The method `stan::io::reader::simplex_constrain(k)`: reads `k - 1` scalars (in
`size_t` arithmetic) and applies `stan::math::simplex_constrain`. -/
def reader_simplex_constrain (P : Libm K) (data_r : List (Val K)) (k : Nat) :
    Except Err (List (Val K)) := do
  let y ← reader_vector data_r 0 (size_t_pred k)
  pure (simplex_constrain P y)

/-- The method `stan::io::reader::simplex_constrain(k, lp)`: as above, also incrementing
`lp` by the log-Jacobian of the transform. -/
def reader_simplex_constrain_lp (P : Libm K) (data_r : List (Val K)) (k : Nat) (lp : Val K) :
    Except Err (List (Val K) × Val K) := do
  let y ← reader_vector data_r 0 (size_t_pred k)
  pure (simplex_constrain_lp P y lp)

/-- The method `stan::io::writer::simplex_unconstrain(y)`: `check_simplex`, then the
entries of `simplex_free(y)` are appended to `data_r`. -/
def writer_simplex_unconstrain (P : Libm K) (data_r : List (Val K)) (y : List (Val K)) :
    Except Err (List (Val K)) := do
  check_simplex y
  let uy ← simplex_free P y
  pure (data_r ++ uy)

end StanReader

section Model

variable {K : Type} [LinearOrderedField K]

/-- The class `model_sigfit`: its data members and the member `num_params_r__` of the
base class `prob_grad`. -/
structure model_sigfit (K : Type) where
  C : Int
  S : Int
  signatures : matrix_d K
  counts : List Int
  alpha : List K
  num_params_r : Nat

/-- The inner loop of `ctor_body` that fills column `n_mat` of `signatures`:
`for (m_mat = 0; m_mat < lim; ++m_mat) signatures(m_mat, n_mat) = vals_r__[pos__++]`, by
recursion on the number of iterations.  The state is the matrix and `pos__`. -/
def fill_column (vals_r : List K) (n_mat : Nat) :
    Nat → matrix_d K × Nat → Except Err (matrix_d K × Nat)
  | 0, st => .ok st
  | m_mat + 1, st => do
    let st1 ← fill_column vals_r n_mat m_mat st
    let v ← read_at vals_r st1.2
    pure (st1.1.set m_mat n_mat v, st1.2 + 1)

/-- The outer loop of `ctor_body` that fills `signatures` column after column, by
recursion on the number of iterations. -/
def fill_signatures (vals_r : List K) (C_lim : Nat) :
    Nat → matrix_d K × Nat → Except Err (matrix_d K × Nat)
  | 0, st => .ok st
  | n_mat + 1, st => do
    let st1 ← fill_signatures vals_r C_lim n_mat st
    fill_column vals_r n_mat C_lim st1

/-- The member function `model_sigfit::ctor_body`.  A freshly sized Eigen matrix is given
the entries `0` before it is filled. -/
def ctor_body (context : var_context K) : Except Err (model_sigfit K) := do
  context.validate_dims "C" "int" []
  let C ← read_at (context.vals_i "C") 0
  context.validate_dims "S" "int" []
  let S ← read_at (context.vals_i "S") 0
  context.validate_dims "signatures" "matrix_d" [to_size_t C, to_size_t S]
  validate_non_negative_index C
  validate_non_negative_index S
  let signatures0 : matrix_d K := { rows := C.toNat, cols := S.toNat, coeff := fun _ _ => 0 }
  let filled ← fill_signatures (context.vals_r "signatures") (to_size_t C) (to_size_t S)
    (signatures0, 0)
  context.validate_dims "counts" "int" [to_size_t C]
  validate_non_negative_index C
  let counts ← copy_first (to_size_t C) (context.vals_i "counts")
  validate_non_negative_index S
  context.validate_dims "alpha" "vector_d" [to_size_t S]
  let alpha ← copy_first (to_size_t S) (context.vals_r "alpha")
  check_greater_or_equal_int C 1
  check_greater_or_equal_int S 1
  check_greater_or_equal_vec alpha 0
  pure { C := C, S := S, signatures := filled.1, counts := counts, alpha := alpha,
         num_params_r := 0 + to_size_t (S - 1) }

/-- The member function `model_sigfit::transform_inits` (the overload that fills
`params_r__`); it returns the new `params_r__`.  Any exception of `simplex_unconstrain` is
rethrown as `std::runtime_error`. -/
def transform_inits (P : Libm K) (m : model_sigfit K) (context : var_context K) :
    Except Err (List (Val K)) := do
  if context.contains_r "exposures" = false then throw Err.runtime_error
  let vals_r := context.vals_r "exposures"
  context.validate_dims "exposures" "vector_d" [to_size_t m.S]
  let exposures ← copy_first m.S.toNat (vals_r.map Val.fin)
  match writer_simplex_unconstrain P [] exposures with
  | .ok data_r => pure data_r
  | .error _ => throw Err.runtime_error

/-- The statements that compute the transformed parameter `probs` in `log_prob` and
`write_array`: `assign(probs, multiply(signatures, exposures))` followed by
`assign(probs, divide(probs, sum(probs)))`; `assign` requires the size `C` of `probs`. -/
def compute_probs (m : model_sigfit K) (exposures : List (Val K)) :
    Except Err (List (Val K)) := do
  let mixed ← multiply m.signatures exposures
  check_size_match m.C.toNat mixed.length
  pure (divide mixed (vsum mixed))

/-- The member function template `model_sigfit::log_prob<propto__, jacobian__, T__>`;
`T_is_var` says that `T__` is an autodiff variable type rather than `double`.  The
accumulator sums its entries from `0.0` in the order they were added.  The loop over
`is_uninitialized(probs(i))` cannot throw once `probs` has been assigned (the test is
constantly false on `double`) and has no counterpart here. -/
def log_prob (P : Libm K) (m : model_sigfit K) (propto jacobian T_is_var : Bool)
    (params_r : List (Val K)) : Except Err (Val K) := do
  let lp0 : Val K := .fin 0
  let r ← (if jacobian then reader_simplex_constrain_lp P params_r (to_size_t m.S) lp0
           else (reader_simplex_constrain P params_r (to_size_t m.S)).map (fun e => (e, lp0)))
  let exposures := r.1
  let lp := r.2
  let probs ← compute_probs m exposures
  check_simplex probs
  let d ← dirichlet_log P propto T_is_var exposures (m.alpha.map Val.fin)
  let mn ← multinomial_log P propto T_is_var m.counts probs
  pure (vsum [d, mn, lp])

/-- The member function `model_sigfit::write_array` (the `std::vector` overload); it
returns `vars__`. -/
def write_array (P : Libm K) (m : model_sigfit K) (params_r : List (Val K))
    (include_tparams include_gqs : Bool) : Except Err (List (Val K)) := do
  let exposures ← reader_simplex_constrain P params_r (to_size_t m.S)
  let vars1 ← copy_first m.S.toNat exposures
  if include_tparams = false then pure vars1
  else do
    let probs ← compute_probs m exposures
    check_simplex probs
    let vars2 ← copy_first m.C.toNat probs
    if include_gqs = false then pure (vars1 ++ vars2)
    else pure (vars1 ++ vars2)

/-- The loop `for (int k = 1; k <= n; ++k) param_names.push_back(base + '.' + k)`. -/
def push_names (base : String) (n : Int) (param_names : List String) : List String :=
  (List.range n.toNat).foldl
    (fun names k => names ++ [base ++ "." ++ toString (k + 1)]) param_names

/-- The member function `model_sigfit::constrained_param_names`; it returns the extended
`param_names__`. -/
def constrained_param_names (m : model_sigfit K) (param_names : List String)
    (include_tparams include_gqs : Bool) : List String :=
  let names1 := push_names "exposures" m.S param_names
  if include_gqs = false ∧ include_tparams = false then names1
  else push_names "probs" m.C names1

/-- The member function `model_sigfit::unconstrained_param_names`; it returns the extended
`param_names__`. -/
def unconstrained_param_names (m : model_sigfit K) (param_names : List String)
    (include_tparams include_gqs : Bool) : List String :=
  let names1 := push_names "exposures" (m.S - 1) param_names
  if include_gqs = false ∧ include_tparams = false then names1
  else push_names "probs" (m.C - 1) names1

/-- The normalising constant of the Dirichlet log density, in the words of the
specification: `log Gamma(sum alpha) - sum_s log Gamma(alpha_s)`. -/
def log_dirichlet_normalizer (P : Libm K) (alpha : List K) : K :=
  P.lgamma alpha.sum - (alpha.map P.lgamma).sum

/-- The log multinomial coefficient of the counts, in the words of the specification:
`log Gamma(1 + sum_i n_i) - sum_i log Gamma(n_i + 1)`. -/
def log_multinomial_coefficient (P : Libm K) (counts : List Int) : K :=
  P.lgamma (1 + ((counts.sum : Int) : K)) -
    (counts.map (fun (n : Int) => P.lgamma ((n : K) + 1))).sum

/-- The class invariant that `ctor_body` establishes: `C >= 1`, `S >= 1`, `signatures` is
`C x S`, `counts` has `C` entries, `alpha` has `S` entries, all `>= 0`, and the number of
unconstrained parameters is `S - 1`. -/
structure model_sigfit.Valid (m : model_sigfit K) : Prop where
  C_pos : 1 ≤ m.C
  S_pos : 1 ≤ m.S
  rows_eq : m.signatures.rows = m.C.toNat
  cols_eq : m.signatures.cols = m.S.toNat
  counts_len : m.counts.length = m.C.toNat
  alpha_len : m.alpha.length = m.S.toNat
  alpha_nonneg : ∀ a ∈ m.alpha, 0 ≤ a
  num_params : m.num_params_r = (m.S - 1).toNat

/-- Scenario A of the specification: `S = 2`, `C = 2`, `signatures = [[1,0],[0,1]]`,
`counts = [10, 0]`, `alpha = [1, 1]`. -/
def scenario_A (K : Type) [LinearOrderedField K] : model_sigfit K :=
  { C := 2, S := 2,
    signatures := { rows := 2, cols := 2, coeff := fun i j => if i = j then 1 else 0 },
    counts := [10, 0], alpha := [1, 1], num_params_r := 1 }

/-- A model with a single signature (`S = 1`): the signature column `col`, the counts and
the one concentration `a`. -/
def single_signature_model (col : List K) (counts : List Int) (a : K) : model_sigfit K :=
  { C := (col.length : Int), S := 1,
    signatures := { rows := col.length, cols := 1, coeff := fun i _ => col.getD i 0 },
    counts := counts, alpha := [a], num_params_r := 0 }

/-- A data context holding `C`, `S`, `signatures` (column by column), `counts` and `alpha`
with the dimensions `[]`, `[]`, `[C, S]`, `[C]` and `[S]`. -/
def data_context (C S : Int) (signatures : List K) (counts : List Int) (alpha : List K) :
    var_context K :=
  { contains_r := fun name =>
      name = "C" || name = "S" || name = "signatures" || name = "counts" || name = "alpha"
    vals_r := fun name =>
      if name = "signatures" then signatures else if name = "alpha" then alpha else []
    dims_r := fun name =>
      if name = "signatures" then [C.toNat, S.toNat]
      else if name = "counts" then [C.toNat]
      else if name = "alpha" then [S.toNat] else []
    contains_i := fun name => name = "C" || name = "S" || name = "counts"
    vals_i := fun name =>
      if name = "C" then [C] else if name = "S" then [S]
      else if name = "counts" then counts else []
    dims_i := fun name => if name = "counts" then [C.toNat] else [] }

/-- An initialisation context holding the real vector `exposures`. -/
def inits_context (x : List K) : var_context K :=
  { contains_r := fun name => name = "exposures"
    vals_r := fun name => if name = "exposures" then x else []
    dims_r := fun name => if name = "exposures" then [x.length] else []
    contains_i := fun _ => false
    vals_i := fun _ => []
    dims_i := fun _ => [] }

end Model

/-! ## Lemmas on the arithmetic of doubles -/

section ValLemmas

variable {K : Type} [LinearOrderedField K]

@[simp] theorem Val.add_fin_fin (a b : K) : Val.add (.fin a) (.fin b) = .fin (a + b) := rfl

@[simp] theorem Val.neg_fin (a : K) : Val.neg (.fin a) = .fin (-a) := rfl

@[simp] theorem Val.sub_fin_fin (a b : K) : Val.sub (.fin a) (.fin b) = .fin (a - b) := by
  simp [Val.sub, sub_eq_add_neg]

@[simp] theorem Val.mul_fin_fin (a b : K) : Val.mul (.fin a) (.fin b) = .fin (a * b) := rfl

theorem Val.div_fin_fin (a : K) {b : K} (hb : b ≠ 0) :
    Val.div (.fin a) (.fin b) = .fin (a / b) := by
  simp [Val.div, hb]

@[simp] theorem Val.exp_fin (P : Libm K) (a : K) : Val.exp P (.fin a) = .fin (P.exp a) := rfl

theorem Val.log_fin_pos (P : Libm K) {a : K} (ha : 0 < a) :
    Val.log P (.fin a) = .fin (P.log a) := by
  simp [Val.log, ha]

@[simp] theorem Val.log_fin_zero (P : Libm K) : Val.log P (.fin (0 : K)) = .ninf := by
  simp [Val.log]

@[simp] theorem Val.le_fin_fin (a b : K) : Val.le (.fin a) (.fin b) = decide (a ≤ b) := rfl

@[simp] theorem Val.lt_fin_fin (a b : K) : Val.lt (.fin a) (.fin b) = decide (a < b) := rfl

@[simp] theorem Val.eqb_fin_fin (a b : K) : Val.eqb (.fin a) (.fin b) = decide (a = b) := rfl

@[simp] theorem Val.fabs_fin (a : K) : Val.fabs (.fin a) = .fin |a| := rfl

@[simp] theorem vzero_add (v : Val K) : Val.add (.fin 0) v = v := by
  cases v <;> simp [Val.add]

@[simp] theorem vadd_zero (v : Val K) : Val.add v (.fin 0) = v := by
  cases v <;> simp [Val.add]

theorem vadd_comm (a b : Val K) : Val.add a b = Val.add b a := by
  cases a <;> cases b <;> simp [Val.add, add_comm]

theorem vadd_assoc (a b c : Val K) :
    Val.add (Val.add a b) c = Val.add a (Val.add b c) := by
  cases a <;> cases b <;> cases c <;> simp [Val.add, add_assoc]

theorem foldl_add_eq (xs : List (Val K)) (a : Val K) :
    xs.foldl Val.add a = Val.add a (vsum xs) := by
  induction xs generalizing a with
  | nil => simp [vsum]
  | cons x xs ih =>
    have h1 := ih (Val.add a x)
    have h2 := ih (Val.add (.fin 0) x)
    simp only [vsum, List.foldl_cons] at h1 h2 ⊢
    rw [h1, h2, vzero_add, vadd_assoc]

theorem vsum_cons (x : Val K) (xs : List (Val K)) :
    vsum (x :: xs) = Val.add x (vsum xs) := by
  have h := foldl_add_eq xs (Val.add (.fin 0) x)
  simp only [vzero_add] at h
  simpa [vsum] using h

@[simp] theorem vsum_nil : vsum ([] : List (Val K)) = .fin 0 := rfl

theorem vsum_map_fin (xs : List K) : vsum (xs.map Val.fin) = .fin xs.sum := by
  induction xs with
  | nil => simp
  | cons x xs ih => rw [List.map_cons, vsum_cons, ih]; simp

theorem ofInt_natCast (n : Nat) : (ofInt ((n : Nat) : Int) : Val K) = .fin (n : K) := by
  simp [ofInt]

end ValLemmas

/-! ## Lemmas on the loops that read vectors -/

section IOLemmas
variable {K : Type} [LinearOrderedField K]

theorem to_size_t_of_nonneg {i : Int} (h : 0 ≤ i) : to_size_t i = i.toNat := by
  simp [to_size_t, h]

theorem size_t_pred_of_pos {k : Nat} (h : 0 < k) : size_t_pred k = k - 1 := by
  simp [size_t_pred, Nat.pos_iff_ne_zero.1 h]

theorem read_at_of_lt {α : Type} (v : List α) (pos : Nat) (h : pos < v.length) :
    read_at v pos = .ok (v.get ⟨pos, h⟩) := by
  simp [read_at, List.getElem?_eq_getElem h]

theorem read_at_of_ge {α : Type} (v : List α) (pos : Nat) (h : v.length ≤ pos) :
    read_at v pos = .error .out_of_range := by
  simp [read_at, List.getElem?_eq_none h]

theorem copy_first_eq {α : Type} (n : Nat) (v : List α) :
    copy_first n v = if n ≤ v.length then .ok (v.take n) else .error .out_of_range := by
  induction n with
  | zero => simp [copy_first]
  | succ n ih =>
    rw [copy_first, ih]
    by_cases h1 : n + 1 ≤ v.length
    · have h2 : n ≤ v.length := by omega
      have h3 : n < v.length := by omega
      rw [if_pos h1, if_pos h2, read_at_of_lt v n h3]
      show Except.ok (List.take n v ++ [v.get ⟨n, h3⟩]) = _
      congr 1
      rw [List.take_succ, List.getElem?_eq_getElem h3]
      rfl
    · by_cases h2 : n ≤ v.length
      · rw [if_neg h1, if_pos h2, read_at_of_ge v n (by omega)]
        rfl
      · rw [if_neg h1, if_neg h2]
        rfl

theorem copy_first_length {α : Type} (v : List α) : copy_first v.length v = .ok v := by
  simp [copy_first_eq]

omit [LinearOrderedField K] in
theorem reader_vector_all (data_r : List (Val K)) :
    reader_vector data_r 0 data_r.length = .ok data_r := by
  simp [reader_vector]

end IOLemmas

/-! ## The simplex transform on finite arguments -/

section Transform
variable {K : Type} [LinearOrderedField K]

theorem inv_logit_fin (P : Libm K) (hexp : ∀ a, 0 < P.exp a) (a : K) :
    inv_logit P (.fin a) = .fin (1 / (1 + P.exp (-a))) := by
  have h : (1 + P.exp (-a)) ≠ 0 := by have := hexp (-a); positivity
  simp only [inv_logit, Val.neg_fin, Val.exp_fin, Val.add_fin_fin]
  exact Val.div_fin_fin 1 h

theorem inv_logit_fin_pos (P : Libm K) (hexp : ∀ a, 0 < P.exp a) (a : K) :
    0 < 1 / (1 + P.exp (-a)) := by
  have := hexp (-a); positivity

theorem inv_logit_fin_lt_one (P : Libm K) (hexp : ∀ a, 0 < P.exp a) (a : K) :
    1 / (1 + P.exp (-a)) < 1 := by
  have := hexp (-a)
  rw [div_lt_one (by positivity)]
  linarith

theorem log_count_fin (P : Libm K) (n : Nat) :
    Val.log P (ofInt ((n + 1 : Nat) : Int)) = .fin (P.log ((n : K) + 1)) := by
  rw [ofInt_natCast, Val.log_fin_pos P (by positivity)]
  push_cast; rfl

theorem simplex_constrain_loop_fin (P : Libm K) (hexp : ∀ a, 0 < P.exp a) :
    ∀ (ys : List K) (s : K), 0 < s →
      ∃ xs : List K, simplex_constrain_loop P (.fin s) (ys.map Val.fin) = xs.map Val.fin ∧
        xs.length = ys.length + 1 ∧ (∀ x ∈ xs, 0 < x) ∧ xs.sum = s := by
  intro ys
  induction ys with
  | nil =>
    intro s hs
    exact ⟨[s], by simp [simplex_constrain_loop], by simp, by simpa using hs, by simp⟩
  | cons y ys ih =>
    intro s hs
    have hz0 := inv_logit_fin_pos P hexp (y - P.log ((ys.length : K) + 1))
    have hz1 := inv_logit_fin_lt_one P hexp (y - P.log ((ys.length : K) + 1))
    set z := 1 / (1 + P.exp (-(y - P.log ((ys.length : K) + 1)))) with hz
    have hrest : 0 < s - s * z := by nlinarith
    obtain ⟨xs, h1, h2, h3, h4⟩ := ih (s - s * z) hrest
    refine ⟨(s * z) :: xs, ?_, by simp [h2], ?_, by simp [h4]⟩
    · simp only [List.map_cons, simplex_constrain_loop, List.length_map, log_count_fin,
        Val.sub_fin_fin, inv_logit_fin P hexp, Val.mul_fin_fin, ← hz, h1]
    · intro x hx
      rcases List.mem_cons.1 hx with rfl | hx
      · exact mul_pos hs hz0
      · exact h3 x hx

end Transform

/-! ## C1: simplex validity -/

section C1
variable {K : Type} [LinearOrderedField K]

theorem simplex_constrain_loop_length (P : Libm K) :
    ∀ (y : List (Val K)) (s : Val K), (simplex_constrain_loop P s y).length = y.length + 1 := by
  intro y
  induction y with
  | nil => intro s; simp [simplex_constrain_loop]
  | cons a y ih => intro s; simp [simplex_constrain_loop, ih]

theorem simplex_constrain_lp_loop_fst (P : Libm K) :
    ∀ (y : List (Val K)) (s lp : Val K),
      (simplex_constrain_lp_loop P s lp y).1 = simplex_constrain_loop P s y := by
  intro y
  induction y with
  | nil => intro s lp; simp [simplex_constrain_lp_loop, simplex_constrain_loop]
  | cons a y ih =>
    intro s lp
    simp only [simplex_constrain_lp_loop, simplex_constrain_loop, ih]
    rfl

theorem reader_simplex_constrain_eq (P : Libm K) {S : Int} (hS : 1 ≤ S) (y : List (Val K))
    (hy : (y.length : Int) = S - 1) :
    reader_simplex_constrain P y (to_size_t S) = .ok (simplex_constrain P y) := by
  have h1 : size_t_pred (to_size_t S) = y.length := by
    rw [to_size_t_of_nonneg (by omega), size_t_pred_of_pos (by omega)]
    omega
  simp only [reader_simplex_constrain, h1, reader_vector_all]
  rfl

theorem reader_simplex_constrain_lp_eq (P : Libm K) {S : Int} (hS : 1 ≤ S) (y : List (Val K))
    (hy : (y.length : Int) = S - 1) (lp : Val K) :
    reader_simplex_constrain_lp P y (to_size_t S) lp = .ok (simplex_constrain_lp P y lp) := by
  have h1 : size_t_pred (to_size_t S) = y.length := by
    rw [to_size_t_of_nonneg (by omega), size_t_pred_of_pos (by omega)]
    omega
  simp only [reader_simplex_constrain_lp, h1, reader_vector_all]
  rfl

end C1

/-! ## C6: construction -/

section Ctor
variable {K : Type} [LinearOrderedField K]

theorem bind_ok_iff {ε α β : Type} (x : Except ε α) (f : α → Except ε β) (b : β) :
    (x >>= f) = .ok b ↔ ∃ a, x = .ok a ∧ f a = .ok b := by
  cases x <;> simp [bind, Except.bind]

theorem validate_non_negative_index_ok (v : Int) (u : Unit) :
    validate_non_negative_index v = .ok u ↔ 0 ≤ v := by
  unfold validate_non_negative_index
  split_ifs with h <;> simp <;> omega

theorem check_greater_or_equal_int_ok (y low : Int) (u : Unit) :
    check_greater_or_equal_int y low = .ok u ↔ low ≤ y := by
  unfold check_greater_or_equal_int
  split_ifs with h <;> simp [h]

theorem check_greater_or_equal_vec_ok (y : List K) (low : K) (u : Unit) :
    check_greater_or_equal_vec y low = .ok u ↔ ∀ a ∈ y, low ≤ a := by
  unfold check_greater_or_equal_vec
  split_ifs with h
  · simpa using h
  · simpa using h

omit [LinearOrderedField K] in
theorem validate_dims_ok (ctx : var_context K) (name base_type : String) (dims : List Nat)
    (u : Unit) :
    ctx.validate_dims name base_type dims = .ok u ↔
      (base_type = "int" → ctx.contains_i name = true) ∧
      (base_type ≠ "int" → ctx.contains_r name = true) ∧ ctx.dims_r name = dims := by
  unfold var_context.validate_dims
  split_ifs with h1 h2 h3 h4
  · simp [h1.1, h1.2]
  · simp [h2.1, h2.2]
  · simp; intro _ _ h; exact h3 (by rw [h])
  · simp; intro _ _; exact h4
  · simp only [true_iff]
    refine ⟨?_, ?_, ?_⟩
    · intro hb; by_contra hc; exact h1 ⟨hb, by simpa using hc⟩
    · intro hb; by_contra hc; exact h2 ⟨hb, by simpa using hc⟩
    · by_contra hc; exact h4 hc

theorem read_at_ok {α : Type} (v : List α) (pos : Nat) (x : α) :
    read_at v pos = .ok x ↔ v[pos]? = some x := by
  unfold read_at
  cases h : v[pos]? <;> simp

theorem copy_first_ok {α : Type} (n : Nat) (v out : List α) :
    copy_first n v = .ok out ↔ n ≤ v.length ∧ out = v.take n := by
  rw [copy_first_eq]
  split_ifs with h
  · simp [h, eq_comm]
  · simp [h]

end Ctor

section Ctor
variable {K : Type} [LinearOrderedField K]

omit [LinearOrderedField K] in
theorem fill_column_ok (vals : List K) (n : Nat) :
    ∀ (cnt : Nat) (M : matrix_d K) (pos : Nat), pos + cnt ≤ vals.length →
      ∃ M' : matrix_d K, fill_column vals n cnt (M, pos) = .ok (M', pos + cnt) ∧
        M'.rows = M.rows ∧ M'.cols = M.cols ∧
        ∀ i j, (j = n ∧ i < cnt → vals[pos + i]? = some (M'.coeff i j)) ∧
               (¬ (j = n ∧ i < cnt) → M'.coeff i j = M.coeff i j) := by
  intro cnt
  induction cnt with
  | zero =>
    intro M pos _
    exact ⟨M, rfl, rfl, rfl, fun i j => ⟨fun h => absurd h.2 (Nat.not_lt_zero i), fun _ => rfl⟩⟩
  | succ cnt ih =>
    intro M pos h
    obtain ⟨M1, h1, h2, h3, h4⟩ := ih M pos (by omega)
    have hlt : pos + cnt < vals.length := by omega
    refine ⟨M1.set cnt n (vals.get ⟨pos + cnt, hlt⟩), ?_, h2, h3, ?_⟩
    · rw [fill_column, h1]
      show (read_at vals (pos + cnt) >>= fun v => pure (M1.set cnt n v, pos + cnt + 1)) = _
      rw [read_at_of_lt vals (pos + cnt) hlt]
      rfl
    · intro i j
      constructor
      · rintro ⟨hj, hi⟩
        by_cases hic : i = cnt
        · subst hic; subst hj
          simp [matrix_d.set, List.getElem?_eq_getElem hlt]
        · have hi' : i < cnt := by omega
          have := (h4 i j).1 ⟨hj, hi'⟩
          simp [matrix_d.set, hic, this]
      · intro hne
        have hne1 : ¬ (i = cnt ∧ j = n) := by
          rintro ⟨rfl, rfl⟩; exact hne ⟨rfl, Nat.lt_succ_self _⟩
        have hne2 : ¬ (j = n ∧ i < cnt) := by
          rintro ⟨hj, hi⟩; exact hne ⟨hj, by omega⟩
        simp [matrix_d.set, hne1, (h4 i j).2 hne2]

omit [LinearOrderedField K] in
theorem fill_signatures_ok (vals : List K) (C : Nat) :
    ∀ (cnt : Nat) (M : matrix_d K), C * cnt ≤ vals.length →
      ∃ M' : matrix_d K, fill_signatures vals C cnt (M, 0) = .ok (M', C * cnt) ∧
        M'.rows = M.rows ∧ M'.cols = M.cols ∧
        ∀ i j, (j < cnt ∧ i < C → vals[j * C + i]? = some (M'.coeff i j)) ∧
               (¬ (j < cnt ∧ i < C) → M'.coeff i j = M.coeff i j) := by
  intro cnt
  induction cnt with
  | zero =>
    intro M _
    exact ⟨M, rfl, rfl, rfl, fun i j => ⟨fun h => absurd h.1 (Nat.not_lt_zero j), fun _ => rfl⟩⟩
  | succ cnt ih =>
    intro M h
    have hle : C * cnt ≤ vals.length := le_trans (Nat.mul_le_mul_left C (Nat.le_succ cnt)) h
    obtain ⟨M1, h1, h2, h3, h4⟩ := ih M hle
    have hle2 : C * cnt + C ≤ vals.length := by rw [Nat.mul_succ] at h; exact h
    obtain ⟨M2, k1, k2, k3, k4⟩ := fill_column_ok vals cnt C M1 (C * cnt) hle2
    refine ⟨M2, ?_, k2.trans h2, k3.trans h3, ?_⟩
    · rw [fill_signatures, h1]
      show fill_column vals cnt C (M1, C * cnt) = _
      rw [k1, Nat.mul_succ]
    · intro i j
      constructor
      · rintro ⟨hj, hi⟩
        by_cases hjc : j = cnt
        · have := (k4 i j).1 ⟨hjc, hi⟩
          rw [hjc, Nat.mul_comm cnt C]; rw [hjc] at this; exact this
        · have hj' : j < cnt := by omega
          have a1 := (h4 i j).1 ⟨hj', hi⟩
          have a2 := (k4 i j).2 (fun hh => hjc hh.1)
          rw [a2]; exact a1
      · intro hne
        have a2 := (k4 i j).2 (fun hh => hne ⟨by omega, hh.2⟩)
        have a1 := (h4 i j).2 (fun hh => hne ⟨by omega, hh.2⟩)
        rw [a2, a1]

end Ctor

section Ctor
variable {K : Type} [LinearOrderedField K]

omit [LinearOrderedField K] in
theorem fill_column_dims (vals : List K) (n : Nat) :
    ∀ (cnt : Nat) (st st' : matrix_d K × Nat), fill_column vals n cnt st = .ok st' →
      st'.1.rows = st.1.rows ∧ st'.1.cols = st.1.cols := by
  intro cnt
  induction cnt with
  | zero => intro st st' h; simp only [fill_column, Except.ok.injEq] at h; subst h; exact ⟨rfl, rfl⟩
  | succ cnt ih =>
    intro st st' h
    simp only [fill_column, bind_ok_iff] at h
    obtain ⟨st1, h1, v, _, h3⟩ := h
    have := ih st st1 h1
    simp only [pure, Except.pure, Except.ok.injEq] at h3
    subst h3
    exact this

omit [LinearOrderedField K] in
theorem fill_signatures_dims (vals : List K) (C : Nat) :
    ∀ (cnt : Nat) (st st' : matrix_d K × Nat), fill_signatures vals C cnt st = .ok st' →
      st'.1.rows = st.1.rows ∧ st'.1.cols = st.1.cols := by
  intro cnt
  induction cnt with
  | zero => intro st st' h; simp only [fill_signatures, Except.ok.injEq] at h; subst h; exact ⟨rfl, rfl⟩
  | succ cnt ih =>
    intro st st' h
    simp only [fill_signatures, bind_ok_iff] at h
    obtain ⟨st1, h1, h2⟩ := h
    have a := ih st st1 h1
    have b := fill_column_dims vals cnt C st1 st' h2
    exact ⟨b.1.trans a.1, b.2.trans a.2⟩

theorem ctor_body_ok_inv (ctx : var_context K) (m : model_sigfit K)
    (h : ctor_body ctx = .ok m) :
    (ctx.vals_i "C")[0]? = some m.C ∧ (ctx.vals_i "S")[0]? = some m.S ∧
    m.Valid ∧ m.alpha = (ctx.vals_r "alpha").take m.S.toNat ∧
    m.counts = (ctx.vals_i "counts").take m.C.toNat := by
  simp only [ctor_body, bind_ok_iff, validate_dims_ok, read_at_ok, validate_non_negative_index_ok,
    copy_first_ok, check_greater_or_equal_int_ok, check_greater_or_equal_vec_ok] at h
  obtain ⟨_, _, C, hC, _, _, S, hS, _, _, _, hC0, _, hS0, filled, hfill, _, _, _, _, counts,
    ⟨hcl, hcounts⟩, _, _, _, _, alpha, ⟨hal, halpha⟩, _, hC1, _, hS1, _, hnn, hm⟩ := h
  simp only [pure, Except.pure, Except.ok.injEq] at hm
  subst hm
  have hd := fill_signatures_dims _ _ _ _ _ hfill
  rw [to_size_t_of_nonneg hC0] at hcl hcounts
  rw [to_size_t_of_nonneg hS0] at hal halpha
  refine ⟨hC, hS, ⟨hC1, hS1, hd.1, hd.2, ?_, ?_, hnn, ?_⟩, halpha, hcounts⟩
  · simp [hcounts, hcl]
  · simp [halpha, hal]
  · simp [to_size_t_of_nonneg (show (0:Int) ≤ S - 1 by omega)]

end Ctor

section Ctor
variable {K : Type} [LinearOrderedField K]

theorem ctor_body_ok_of (ctx : var_context K) (C S : Int) (hC : 1 ≤ C) (hS : 1 ≤ S)
    (hCi : ctx.contains_i "C" = true) (hCd : ctx.dims_r "C" = [])
    (hCv : (ctx.vals_i "C")[0]? = some C)
    (hSi : ctx.contains_i "S" = true) (hSd : ctx.dims_r "S" = [])
    (hSv : (ctx.vals_i "S")[0]? = some S)
    (hgr : ctx.contains_r "signatures" = true)
    (hgd : ctx.dims_r "signatures" = [C.toNat, S.toNat])
    (hgl : (ctx.vals_r "signatures").length = C.toNat * S.toNat)
    (hci : ctx.contains_i "counts" = true) (hcd : ctx.dims_r "counts" = [C.toNat])
    (hcl : (ctx.vals_i "counts").length = C.toNat)
    (har : ctx.contains_r "alpha" = true) (had : ctx.dims_r "alpha" = [S.toNat])
    (hal : (ctx.vals_r "alpha").length = S.toNat)
    (hnn : ∀ a ∈ ctx.vals_r "alpha", 0 ≤ a) :
    ∃ m : model_sigfit K, ctor_body ctx = .ok m ∧ m.C = C ∧ m.S = S ∧
      m.counts = ctx.vals_i "counts" ∧ m.alpha = ctx.vals_r "alpha" ∧
      m.signatures.rows = C.toNat ∧ m.signatures.cols = S.toNat ∧
      (∀ i j, i < C.toNat → j < S.toNat →
        (ctx.vals_r "signatures")[j * C.toNat + i]? = some (m.signatures.coeff i j)) ∧
      m.num_params_r = (S - 1).toNat := by
  have hC0 : (0 : Int) ≤ C := by omega
  have hS0 : (0 : Int) ≤ S := by omega
  have e1 : ctx.validate_dims "C" "int" [] = .ok () :=
    (validate_dims_ok ctx _ _ _ ()).2 ⟨fun _ => hCi, fun h => absurd rfl h, hCd⟩
  have e2 : read_at (ctx.vals_i "C") 0 = .ok C := (read_at_ok _ _ _).2 hCv
  have e3 : ctx.validate_dims "S" "int" [] = .ok () :=
    (validate_dims_ok ctx _ _ _ ()).2 ⟨fun _ => hSi, fun h => absurd rfl h, hSd⟩
  have e4 : read_at (ctx.vals_i "S") 0 = .ok S := (read_at_ok _ _ _).2 hSv
  have e5 : ctx.validate_dims "signatures" "matrix_d" [C.toNat, S.toNat] = .ok () :=
    (validate_dims_ok ctx _ _ _ ()).2 ⟨fun h => by simp at h, fun _ => hgr, hgd⟩
  have e6 : validate_non_negative_index C = .ok () :=
    (validate_non_negative_index_ok C ()).2 hC0
  have e7 : validate_non_negative_index S = .ok () :=
    (validate_non_negative_index_ok S ()).2 hS0
  obtain ⟨M, e8, hrows, hcols, hcoeff⟩ := fill_signatures_ok (ctx.vals_r "signatures") C.toNat
    S.toNat { rows := C.toNat, cols := S.toNat, coeff := fun _ _ => (0 : K) } (le_of_eq hgl.symm)
  have e9 : ctx.validate_dims "counts" "int" [C.toNat] = .ok () :=
    (validate_dims_ok ctx _ _ _ ()).2 ⟨fun _ => hci, fun h => absurd rfl h, hcd⟩
  have e10 : copy_first C.toNat (ctx.vals_i "counts") = .ok (ctx.vals_i "counts") := by
    rw [← hcl, copy_first_length]
  have e11 : ctx.validate_dims "alpha" "vector_d" [S.toNat] = .ok () :=
    (validate_dims_ok ctx _ _ _ ()).2 ⟨fun h => by simp at h, fun _ => har, had⟩
  have e12 : copy_first S.toNat (ctx.vals_r "alpha") = .ok (ctx.vals_r "alpha") := by
    rw [← hal, copy_first_length]
  have e13 : check_greater_or_equal_int C 1 = .ok () :=
    (check_greater_or_equal_int_ok C 1 ()).2 hC
  have e14 : check_greater_or_equal_int S 1 = .ok () :=
    (check_greater_or_equal_int_ok S 1 ()).2 hS
  have e15 : check_greater_or_equal_vec (ctx.vals_r "alpha") 0 = .ok () :=
    (check_greater_or_equal_vec_ok _ 0 ()).2 hnn
  refine ⟨{ C := C, S := S, signatures := M, counts := ctx.vals_i "counts",
            alpha := ctx.vals_r "alpha", num_params_r := 0 + to_size_t (S - 1) }, ?_, rfl, rfl,
          rfl, rfl, hrows, hcols, ?_, ?_⟩
  · simp only [ctor_body, e1, e2, e3, e4, to_size_t_of_nonneg hC0, to_size_t_of_nonneg hS0, e5,
      e6, e7, e8, e9, e10, e11, e12, e13, e14, e15, bind, Except.bind, pure, Except.pure]
  · intro i j hi hj
    exact (hcoeff i j).1 ⟨hj, hi⟩
  · simp [to_size_t_of_nonneg (show (0:Int) ≤ S - 1 by omega)]

/-- C6 (construction validation).  `ctor_body` fails whenever the supplied `C` is below 1,
or the supplied `S` is below 1, or one of the `S` supplied entries of `alpha` is negative;
when it succeeds, `alpha` is stored as supplied (nothing is clamped).  When `C >= 1`,
`S >= 1`, every entry of `alpha` is `>= 0` and the context holds `C` and `S` as integer
scalars, `signatures` with dimensions `C x S`, `counts` with dimension `C` and `alpha` with
dimension `S`, construction succeeds, stores `counts` and `alpha` unchanged, stores entry
`j * C + i` of the supplied `signatures` as coefficient `(i, j)` (column by column), and
sets the number of unconstrained parameters to `S - 1`. -/
theorem ctor_body_validation (ctx : var_context K) :
    (∀ c, (ctx.vals_i "C")[0]? = some c → c < 1 → ∃ e, ctor_body ctx = .error e) ∧
    (∀ s, (ctx.vals_i "S")[0]? = some s → s < 1 → ∃ e, ctor_body ctx = .error e) ∧
    (∀ (s : Int) (i : Nat) (a : K), (ctx.vals_i "S")[0]? = some s → i < s.toNat →
      (ctx.vals_r "alpha")[i]? = some a → a < 0 → ∃ e, ctor_body ctx = .error e) ∧
    (∀ m, ctor_body ctx = .ok m → m.alpha = (ctx.vals_r "alpha").take m.S.toNat) ∧
    (∀ C S : Int, 1 ≤ C → 1 ≤ S →
      ctx.contains_i "C" = true → ctx.dims_r "C" = [] → (ctx.vals_i "C")[0]? = some C →
      ctx.contains_i "S" = true → ctx.dims_r "S" = [] → (ctx.vals_i "S")[0]? = some S →
      ctx.contains_r "signatures" = true → ctx.dims_r "signatures" = [C.toNat, S.toNat] →
      (ctx.vals_r "signatures").length = C.toNat * S.toNat →
      ctx.contains_i "counts" = true → ctx.dims_r "counts" = [C.toNat] →
      (ctx.vals_i "counts").length = C.toNat →
      ctx.contains_r "alpha" = true → ctx.dims_r "alpha" = [S.toNat] →
      (ctx.vals_r "alpha").length = S.toNat →
      (∀ a ∈ ctx.vals_r "alpha", 0 ≤ a) →
      ∃ m : model_sigfit K, ctor_body ctx = .ok m ∧ m.C = C ∧ m.S = S ∧
        m.counts = ctx.vals_i "counts" ∧ m.alpha = ctx.vals_r "alpha" ∧
        m.signatures.rows = C.toNat ∧ m.signatures.cols = S.toNat ∧
        (∀ i j, i < C.toNat → j < S.toNat →
          (ctx.vals_r "signatures")[j * C.toNat + i]? = some (m.signatures.coeff i j)) ∧
        m.num_params_r = (S - 1).toNat) := by
  refine ⟨?_, ?_, ?_, ?_, ?_⟩
  · intro c hc hlt
    cases h : ctor_body ctx with
    | error e => exact ⟨e, rfl⟩
    | ok m =>
      obtain ⟨h1, _, hv, _, _⟩ := ctor_body_ok_inv ctx m h
      have : c = m.C := by rw [hc] at h1; exact Option.some.inj h1
      have := hv.C_pos
      omega
  · intro s hs hlt
    cases h : ctor_body ctx with
    | error e => exact ⟨e, rfl⟩
    | ok m =>
      obtain ⟨_, h1, hv, _, _⟩ := ctor_body_ok_inv ctx m h
      have : s = m.S := by rw [hs] at h1; exact Option.some.inj h1
      have := hv.S_pos
      omega
  · intro s i a hs hi ha hneg
    cases h : ctor_body ctx with
    | error e => exact ⟨e, rfl⟩
    | ok m =>
      obtain ⟨_, h1, hv, h2, _⟩ := ctor_body_ok_inv ctx m h
      have hsm : s = m.S := by rw [hs] at h1; exact Option.some.inj h1
      subst hsm
      have hmem : a ∈ m.alpha := by
        rw [h2, List.mem_iff_getElem?]
        exact ⟨i, by rw [List.getElem?_take_of_lt hi]; exact ha⟩
      exact absurd (hv.alpha_nonneg a hmem) (not_le.2 hneg)
  · intro m h
    exact (ctor_body_ok_inv ctx m h).2.2.2.1
  · intro C S hC hS a1 a2 a3 a4 a5 a6 a7 a8 a9 a10 a11 a12 a13 a14 a15 a16
    exact ctor_body_ok_of ctx C S hC hS a1 a2 a3 a4 a5 a6 a7 a8 a9 a10 a11 a12 a13 a14 a15 a16

end Ctor

/-! ## C3: the forward model -/

section Forward
variable {K : Type} [LinearOrderedField K]

theorem vadd_eq_fin {a b : Val K} {t : K} (h : Val.add a b = .fin t) :
    ∃ x y, a = .fin x ∧ b = .fin y ∧ x + y = t := by
  cases a <;> cases b <;> simp [Val.add] at h
  exact ⟨_, _, rfl, rfl, h⟩

theorem vsum_eq_fin : ∀ (xs : List (Val K)) (t : K), vsum xs = .fin t →
    ∃ ps : List K, xs = ps.map Val.fin ∧ ps.sum = t := by
  intro xs
  induction xs with
  | nil => intro t h; exact ⟨[], rfl, by simpa [eq_comm] using h⟩
  | cons x xs ih =>
    intro t h
    rw [vsum_cons] at h
    obtain ⟨a, b, rfl, hb, hab⟩ := vadd_eq_fin h
    obtain ⟨ps, rfl, hps⟩ := ih b hb
    exact ⟨a :: ps, rfl, by simp [hps, hab]⟩

theorem vdiv_eq_fin {x s : Val K} {p : K} (h : Val.div x s = .fin p) : ∃ a, x = .fin a := by
  cases x <;> cases s <;> simp [Val.div] at h <;> first | exact ⟨_, rfl⟩ | skip
  all_goals (split_ifs at h)

theorem check_simplex_ok (theta : List (Val K)) (u : Unit) :
    check_simplex theta = .ok u ↔
      ∃ ps : List K, theta = ps.map Val.fin ∧ ps ≠ [] ∧
        |1 - ps.sum| ≤ CONSTRAINT_TOLERANCE ∧ ∀ p ∈ ps, 0 ≤ p := by
  constructor
  · intro h
    unfold check_simplex at h
    split_ifs at h with h1 h2 h3
    cases hs : vsum theta with
    | fin t =>
      obtain ⟨ps, rfl, hps⟩ := vsum_eq_fin theta t hs
      refine ⟨ps, rfl, ?_, ?_, ?_⟩
      · rintro rfl; simp at h1
      · rw [hs] at h2; simpa [hps] using h2
      · intro p hp
        have := List.all_eq_true.1 h3 (.fin p) (List.mem_map_of_mem _ hp)
        simpa using this
    | pinf => rw [hs] at h2; simp [Val.sub, Val.neg, Val.add, Val.fabs, Val.le] at h2
    | ninf => rw [hs] at h2; simp [Val.sub, Val.neg, Val.add, Val.fabs, Val.le] at h2
    | nan => rw [hs] at h2; simp [Val.sub, Val.neg, Val.add, Val.fabs, Val.le] at h2
  · rintro ⟨ps, rfl, hne, hsum, hnn⟩
    unfold check_simplex
    have h1 : ¬ (List.map Val.fin ps).length = 0 := by simpa using hne
    have h2 : ¬ (!Val.le (Val.fabs (Val.sub (.fin 1) (vsum (ps.map Val.fin))))
        (.fin CONSTRAINT_TOLERANCE)) = true := by
      simp [vsum_map_fin, hsum]
    have h3 : (List.map Val.fin ps).all (fun t => Val.le (.fin 0) t) = true := by
      simp only [List.all_eq_true, List.mem_map]
      rintro _ ⟨p, hp, rfl⟩
      simpa using hnn p hp
    rw [if_neg h1, if_neg h2, if_pos h3]

end Forward

section Forward
variable {K : Type} [LinearOrderedField K]

omit [LinearOrderedField K] in
theorem exists_map_fin : ∀ (xs : List (Val K)), (∀ x ∈ xs, ∃ a, x = Val.fin a) →
    ∃ as : List K, xs = as.map Val.fin := by
  intro xs
  induction xs with
  | nil => intro _; exact ⟨[], rfl⟩
  | cons x xs ih =>
    intro h
    obtain ⟨a, rfl⟩ := h x (List.mem_cons_self _ _)
    obtain ⟨as, rfl⟩ := ih (fun y hy => h y (List.mem_cons_of_mem _ hy))
    exact ⟨a :: as, rfl⟩

omit [LinearOrderedField K] in
theorem map_fin_injective : Function.Injective (List.map (Val.fin : K → Val K)) :=
  List.map_injective_iff.2 (fun _ _ h => Val.fin.inj h)

theorem infOfSign_ne_fin (a p : K) : Val.infOfSign a ≠ Val.fin p := by
  unfold Val.infOfSign
  split_ifs <;> simp

theorem divide_map_fin (as : List K) (h : as.sum ≠ 0) :
    divide (as.map Val.fin) (.fin as.sum) = (as.map (fun a => a / as.sum)).map Val.fin := by
  simp only [divide, List.map_map]
  apply List.map_congr_left
  intro a _
  simp [Val.div_fin_fin a h]

theorem divide_finite (mixed : List (Val K)) (ps : List K) (hne : ps ≠ [])
    (h : divide mixed (vsum mixed) = ps.map Val.fin) :
    ∃ as : List K, mixed = as.map Val.fin ∧ as.sum ≠ 0 ∧ ps = as.map (fun a => a / as.sum) := by
  have hfin : ∀ x ∈ mixed, ∃ a, x = Val.fin a := by
    intro x hx
    have hmem : Val.div x (vsum mixed) ∈ ps.map Val.fin := by
      rw [← h]; exact List.mem_map_of_mem _ hx
    obtain ⟨p, _, hp⟩ := List.mem_map.1 hmem
    exact vdiv_eq_fin hp.symm
  obtain ⟨as, rfl⟩ := exists_map_fin mixed hfin
  rw [vsum_map_fin] at h
  have hsum : as.sum ≠ 0 := by
    intro h0
    cases as with
    | nil => simp [divide] at h; exact hne h
    | cons a as =>
      cases ps with
      | nil => exact hne rfl
      | cons p ps =>
        simp only [divide, List.map_cons, h0, List.cons.injEq] at h
        have := h.1
        simp only [Val.div, if_true] at this
        exact infOfSign_ne_fin a p this
  refine ⟨as, rfl, hsum, ?_⟩
  rw [divide_map_fin as hsum] at h
  exact (map_fin_injective h).symm

theorem sum_map_div (as : List K) (c : K) :
    (as.map (fun a => a / c)).sum = as.sum / c := by
  induction as with
  | nil => simp
  | cons a as ih => simp [ih, add_div]

theorem multiply_ok (M : matrix_d K) (v out : List (Val K)) (h : multiply M v = .ok out) :
    out.length = M.rows ∧ M.rows ≠ 0 ∧ M.cols = v.length ∧ M.cols ≠ 0 := by
  unfold multiply at h
  split_ifs at h with h1 h2 h3
  simp only [Except.ok.injEq] at h
  subst h
  exact ⟨by simp, h1, not_not.1 h2, h3⟩

omit [LinearOrderedField K] in
theorem reader_vector_ok (d y : List (Val K)) (n : Nat) (h : reader_vector d 0 n = .ok y) :
    y.length = n ∧ y = d.take n := by
  unfold reader_vector at h
  split_ifs at h with h1
  simp only [Except.ok.injEq, List.drop_zero] at h
  subst h
  exact ⟨by simp; omega, rfl⟩

theorem reader_simplex_constrain_ok (P : Libm K) {S : Int} (hS : 1 ≤ S)
    (params e : List (Val K)) (h : reader_simplex_constrain P params (to_size_t S) = .ok e) :
    e.length = S.toNat ∧ e = simplex_constrain P (params.take (S.toNat - 1)) := by
  simp only [reader_simplex_constrain, bind_ok_iff] at h
  obtain ⟨y, hy, he⟩ := h
  rw [to_size_t_of_nonneg (by omega), size_t_pred_of_pos (by omega)] at hy
  obtain ⟨h1, h2⟩ := reader_vector_ok _ _ _ hy
  simp only [pure, Except.pure, Except.ok.injEq] at he
  subst he
  subst h2
  refine ⟨?_, rfl⟩
  rw [simplex_constrain, simplex_constrain_loop_length, h1]
  omega

end Forward

section Forward
variable {K : Type} [LinearOrderedField K]

theorem check_size_match_ok (i j : Nat) (u : Unit) : check_size_match i j = .ok u ↔ i = j := by
  unfold check_size_match
  split_ifs with h <;> simp [h]

theorem compute_probs_ok (m : model_sigfit K) (e probs : List (Val K)) :
    compute_probs m e = .ok probs ↔
      ∃ mixed, multiply m.signatures e = .ok mixed ∧ m.C.toNat = mixed.length ∧
        probs = divide mixed (vsum mixed) := by
  simp only [compute_probs, bind_ok_iff, check_size_match_ok, pure, Except.pure,
    Except.ok.injEq, exists_and_left, exists_const]
  constructor
  · rintro ⟨mixed, h1, h2, h3⟩; exact ⟨mixed, h1, h2, h3.symm⟩
  · rintro ⟨mixed, h1, h2, h3⟩; exact ⟨mixed, h1, h2, h3.symm⟩

/-- What a successful call of `write_array` with the default flags returns. -/
theorem write_array_default_ok (P : Libm K) (m : model_sigfit K) (hv : m.Valid)
    (params out : List (Val K)) (h : write_array P m params true true = .ok out) :
    ∃ (e mixed : List (Val K)) (as ps : List K),
      reader_simplex_constrain P params (to_size_t m.S) = .ok e ∧ e.length = m.S.toNat ∧
      multiply m.signatures e = .ok mixed ∧ mixed.length = m.C.toNat ∧
      out = e ++ mixed.map (fun v => Val.div v (vsum mixed)) ∧
      out.length = m.S.toNat + m.C.toNat ∧
      mixed = as.map Val.fin ∧ as.sum ≠ 0 ∧ ps = as.map (fun a => a / as.sum) ∧
      mixed.map (fun v => Val.div v (vsum mixed)) = ps.map Val.fin ∧
      (∀ p ∈ ps, 0 ≤ p) ∧ ps.sum = 1 := by
  simp only [write_array, bind_ok_iff, copy_first_ok, compute_probs_ok, check_simplex_ok,
    Bool.true_eq_false, if_false, pure, Except.pure, Except.ok.injEq] at h
  obtain ⟨e, he, vars1, ⟨_, hvars1⟩, probs, ⟨mixed, hmul, hlen, hprobs⟩, _,
    ⟨ps, hps, hne, _, hnn⟩, vars2, ⟨_, hvars2⟩, hout⟩ := h
  obtain ⟨hel, _⟩ := reader_simplex_constrain_ok P hv.S_pos params e he
  rw [hprobs] at hps
  obtain ⟨as, has, hsum, hpsas⟩ := divide_finite mixed ps hne hps
  have hv1 : vars1 = e := by rw [hvars1, ← hel, List.take_length]
  have hv2 : vars2 = probs := by
    rw [hvars2, hlen]
    have : mixed.length = probs.length := by rw [hprobs]; simp [divide]
    rw [this, List.take_length]
  refine ⟨e, mixed, as, ps, he, hel, hmul, hlen.symm, ?_, ?_, has, hsum, hpsas, hps, hnn, ?_⟩
  · rw [← hout, hv1, hv2, hprobs]; rfl
  · rw [← hout, hv1, hv2, hprobs]; simp [divide, hel, hlen]
  · rw [hpsas, sum_map_div, div_self hsum]

end Forward

/-! ## C9, C10: parameter names -/

section Names
variable {K : Type} [LinearOrderedField K]

theorem foldl_push_eq {α β : Type} (f : α → β) :
    ∀ (l : List α) (init : List β),
      l.foldl (fun names k => names ++ [f k]) init = init ++ l.map f := by
  intro l
  induction l with
  | nil => intro init; simp
  | cons a l ih => intro init; simp [ih]

theorem push_names_eq (base : String) (n : Int) (param_names : List String) :
    push_names base n param_names =
      param_names ++ (List.range n.toNat).map (fun k => base ++ "." ++ toString (k + 1)) := by
  unfold push_names
  exact foldl_push_eq _ _ _

theorem push_names_length (base : String) (n : Int) (param_names : List String) :
    (push_names base n param_names).length = param_names.length + n.toNat := by
  simp [push_names_eq]

omit [LinearOrderedField K] in
theorem constrained_param_names_length (m : model_sigfit K) (l : List String) (t g : Bool) :
    (constrained_param_names m l t g).length =
      l.length + m.S.toNat + (if g = false ∧ t = false then 0 else m.C.toNat) := by
  unfold constrained_param_names
  split_ifs <;> simp [push_names_length]

omit [LinearOrderedField K] in
theorem unconstrained_param_names_length (m : model_sigfit K) (l : List String) (t g : Bool) :
    (unconstrained_param_names m l t g).length =
      l.length + (m.S - 1).toNat + (if g = false ∧ t = false then 0 else (m.C - 1).toNat) := by
  unfold unconstrained_param_names
  split_ifs <;> simp [push_names_length]

theorem write_array_length (P : Libm K) (m : model_sigfit K) (hv : m.Valid)
    (params out : List (Val K)) (t g : Bool) (h : write_array P m params t g = .ok out) :
    out.length = m.S.toNat + (if t = false then 0 else m.C.toNat) := by
  cases t with
  | false =>
    simp only [write_array, bind_ok_iff, copy_first_ok, if_true, pure, Except.pure,
      Except.ok.injEq] at h
    obtain ⟨e, he, vars1, ⟨hle, hvars1⟩, hout⟩ := h
    obtain ⟨hel, _⟩ := reader_simplex_constrain_ok P hv.S_pos params e he
    rw [← hout, hvars1]; simp [hel]
  | true =>
    have h' : write_array P m params true true = .ok out := by
      cases g with
      | true => exact h
      | false => simpa [write_array] using h
    obtain ⟨e, mixed, as, ps, _, _, _, _, _, hl, _⟩ := write_array_default_ok P m hv params out h'
    simpa using hl

/-- C9 (constrained names).  For every valid model (`S >= 1`, `C >= 1`),
`constrained_param_names` with the default flags on an empty list yields the `S + C` names
`exposures.1`, ..., `exposures.S`, `probs.1`, ..., `probs.C` in this order, the suffix being
the decimal numeral of the 1-based index.  Any output of `write_array` with the default
flags has as many entries and is the `S` exposures followed by the `C` entries of
`probs`, so the k-th name labels the k-th value. -/
theorem constrained_param_names_default (m : model_sigfit K) (hv : m.Valid) :
    constrained_param_names m [] true true =
      (List.range m.S.toNat).map (fun k => "exposures" ++ "." ++ toString (k + 1)) ++
      (List.range m.C.toNat).map (fun k => "probs" ++ "." ++ toString (k + 1)) ∧
    (constrained_param_names m [] true true).length = m.S.toNat + m.C.toNat ∧
    ∀ (P : Libm K) (params out : List (Val K)), write_array P m params true true = .ok out →
      out.length = (constrained_param_names m [] true true).length ∧
      ∃ e probs : List (Val K),
        reader_simplex_constrain P params (to_size_t m.S) = .ok e ∧
        compute_probs m e = .ok probs ∧ e.length = m.S.toNat ∧ probs.length = m.C.toNat ∧
        out = e ++ probs := by
  have hnames : constrained_param_names m [] true true =
      (List.range m.S.toNat).map (fun k => "exposures" ++ "." ++ toString (k + 1)) ++
      (List.range m.C.toNat).map (fun k => "probs" ++ "." ++ toString (k + 1)) := by
    simp [constrained_param_names, push_names_eq]
  have hlen : (constrained_param_names m [] true true).length = m.S.toNat + m.C.toNat := by
    simp [constrained_param_names_length]
  refine ⟨hnames, hlen, ?_⟩
  intro P params out h
  obtain ⟨e, mixed, as, ps, he, hel, hmul, hml, hout, hl, _⟩ :=
    write_array_default_ok P m hv params out h
  refine ⟨by rw [hl, hlen], e, divide mixed (vsum mixed), he, ?_, hel, by simp [divide, hml], hout⟩
  exact (compute_probs_ok m e _).2 ⟨mixed, hmul, hml.symm, rfl⟩

/-- C10, as amended (index alignment of the name lists).  For every valid model, every
parameter vector on which `write_array` succeeds and every flag setting other than
`include_tparams = false, include_gqs = true`, `constrained_param_names` appends as many
names as `write_array` writes values with the same flags.  For every flag setting
`unconstrained_param_names` appends `S - 1` names for the exposures, and `C - 1` further
names for `probs` unless both flags are false. -/
theorem param_names_alignment (P : Libm K) (m : model_sigfit K) (hv : m.Valid)
    (params out : List (Val K)) (l : List String) (t g : Bool)
    (h : write_array P m params t g = .ok out) :
    ((t = true ∨ g = false) →
      (constrained_param_names m l t g).length = l.length + out.length) ∧
    (unconstrained_param_names m l t g).length =
      l.length + (m.S - 1).toNat + (if g = false ∧ t = false then 0 else (m.C - 1).toNat) ∧
    (m.S - 1).toNat = m.num_params_r := by
  refine ⟨?_, unconstrained_param_names_length m l t g, hv.num_params.symm⟩
  intro hflags
  rw [constrained_param_names_length, write_array_length P m hv params out t g h]
  cases t <;> cases g <;> simp at hflags ⊢ <;> omega

end Names

/-! ## C8: a single signature -/

section Single
variable {K : Type} [LinearOrderedField K]

theorem reader_simplex_constrain_one (P : Libm K) (params : List (Val K)) :
    reader_simplex_constrain P params (to_size_t 1) = .ok [.fin 1] := by
  simp [reader_simplex_constrain, to_size_t, size_t_pred, reader_vector, simplex_constrain,
    simplex_constrain_loop, bind, Except.bind, pure, Except.pure]

theorem reader_simplex_constrain_lp_one (P : Libm K) (params : List (Val K)) (lp : Val K) :
    reader_simplex_constrain_lp P params (to_size_t 1) lp = .ok ([.fin 1], lp) := by
  simp [reader_simplex_constrain_lp, to_size_t, size_t_pred, reader_vector, simplex_constrain_lp,
    simplex_constrain_lp_loop, bind, Except.bind, pure, Except.pure]

theorem compute_probs_one (m : model_sigfit K) (hv : m.Valid) (hS : m.S = 1)
    (hsum : ((List.range m.C.toNat).map (fun i => m.signatures.coeff i 0)).sum ≠ 0) :
    compute_probs m [.fin 1] = .ok
      ((((List.range m.C.toNat).map (fun i => m.signatures.coeff i 0)).map
        (fun a => a / ((List.range m.C.toNat).map (fun i => m.signatures.coeff i 0)).sum)).map
          Val.fin) := by
  have hrows : m.signatures.rows ≠ 0 := by rw [hv.rows_eq]; have := hv.C_pos; omega
  have hcols : m.signatures.cols = 1 := by rw [hv.cols_eq, hS]; rfl
  have hmul : multiply m.signatures [.fin 1] = .ok
      (((List.range m.C.toNat).map (fun i => m.signatures.coeff i 0)).map Val.fin) := by
    unfold multiply
    rw [if_neg hrows, if_neg (by simp [hcols]), if_neg (by simp [hcols]), hcols, hv.rows_eq]
    simp [List.range_succ, vsum]
  rw [compute_probs_ok]
  refine ⟨_, hmul, by simp, ?_⟩
  rw [vsum_map_fin, divide_map_fin _ hsum]

/-- The facts of the single-signature case, for a valid model with `S = 1`. -/
theorem single_signature_facts (P : Libm K) (m : model_sigfit K) (hv : m.Valid)
    (hS : m.S = 1) :
    m.num_params_r = 0 ∧
    (∀ params, reader_simplex_constrain P params (to_size_t m.S) = .ok [.fin 1]) ∧
    (∀ params lp, reader_simplex_constrain_lp P params (to_size_t m.S) lp = .ok ([.fin 1], lp)) ∧
    (∀ params, write_array P m params false false = .ok [.fin 1]) ∧
    (((List.range m.C.toNat).map (fun i => m.signatures.coeff i 0)).sum ≠ 0 →
      compute_probs m [.fin 1] = .ok
        ((((List.range m.C.toNat).map (fun i => m.signatures.coeff i 0)).map
          (fun a => a / ((List.range m.C.toNat).map (fun i => m.signatures.coeff i 0)).sum)).map
            Val.fin)) ∧
    (((List.range m.C.toNat).map (fun i => m.signatures.coeff i 0)).sum ≠ 0 →
      (∀ i, i < m.C.toNat → 0 ≤ m.signatures.coeff i 0) →
      ∀ params, write_array P m params true true = .ok
        (.fin 1 :: (((List.range m.C.toNat).map (fun i => m.signatures.coeff i 0)).map
          (fun a => a / ((List.range m.C.toNat).map (fun i => m.signatures.coeff i 0)).sum)).map
            Val.fin)) := by
  have hw : ∀ params, write_array P m params false false = .ok [.fin 1] := by
    intro params
    simp [write_array, hS, reader_simplex_constrain_one, copy_first, read_at, bind, Except.bind,
      pure, Except.pure]
  refine ⟨by rw [hv.num_params, hS]; rfl, ?_, ?_, hw, compute_probs_one m hv hS, ?_⟩
  · intro params; rw [hS]; exact reader_simplex_constrain_one P params
  · intro params lp; rw [hS]; exact reader_simplex_constrain_lp_one P params lp
  · intro hsum hnn params
    set col := (List.range m.C.toNat).map (fun i => m.signatures.coeff i 0) with hcol
    have hcolnn : ∀ a ∈ col, 0 ≤ a := by
      intro a ha
      obtain ⟨i, hi, rfl⟩ := List.mem_map.1 ha
      exact hnn i (List.mem_range.1 hi)
    have hpos : 0 < col.sum := lt_of_le_of_ne (List.sum_nonneg hcolnn) (Ne.symm hsum)
    have hlen : col.length = m.C.toNat := by simp [hcol]
    have hchk : check_simplex ((col.map (fun a => a / col.sum)).map Val.fin) = .ok () := by
      rw [check_simplex_ok]
      refine ⟨_, rfl, ?_, ?_, ?_⟩
      · intro h
        have : (col.map (fun a => a / col.sum)).length = 0 := by rw [h]; rfl
        have hC := hv.C_pos
        simp [hlen] at this
        omega
      · rw [sum_map_div, div_self hsum]; simp [CONSTRAINT_TOLERANCE]
      · intro p hp
        obtain ⟨a, ha, rfl⟩ := List.mem_map.1 hp
        exact div_nonneg (hcolnn a ha) (le_of_lt hpos)
    have hcopy : copy_first m.C.toNat ((col.map (fun a => a / col.sum)).map Val.fin) =
        .ok ((col.map (fun a => a / col.sum)).map Val.fin) := by
      have : m.C.toNat = ((col.map (fun a => a / col.sum)).map Val.fin).length := by simp [hlen]
      rw [this, copy_first_length]
    have hcp := compute_probs_one m hv hS hsum
    rw [← hcol] at hcp
    simp only [List.map_map] at hchk hcopy
    simp [write_array, hS, reader_simplex_constrain_one, copy_first, read_at, bind, Except.bind,
      pure, Except.pure, hcp, hchk, hcopy]

/-- C8 (scenario B, a single signature).  For every valid model with `S = 1`: the number
of unconstrained parameters is 0; whatever the parameter vector, the exposures that
`write_array` writes and that `log_prob` reconstructs (with or without the Jacobian, which
adds nothing) are `[1]`; when the sum of the single signature column is not zero, the
transformed parameter `probs` computed from these exposures has the entries
`signatures[i][0] / sum of the column`; and when moreover no entry of the column is
negative, `write_array` with the default flags returns `1` followed by these entries. -/
theorem single_signature_scenario (P : Libm K) (m : model_sigfit K) (hv : m.Valid)
    (hS : m.S = 1) :
    m.num_params_r = 0 ∧
    (∀ params, reader_simplex_constrain P params (to_size_t m.S) = .ok [.fin 1]) ∧
    (∀ params lp, reader_simplex_constrain_lp P params (to_size_t m.S) lp = .ok ([.fin 1], lp)) ∧
    (∀ params, write_array P m params false false = .ok [.fin 1]) ∧
    (((List.range m.C.toNat).map (fun i => m.signatures.coeff i 0)).sum ≠ 0 →
      compute_probs m [.fin 1] = .ok
        ((((List.range m.C.toNat).map (fun i => m.signatures.coeff i 0)).map
          (fun a => a / ((List.range m.C.toNat).map (fun i => m.signatures.coeff i 0)).sum)).map
            Val.fin)) ∧
    (((List.range m.C.toNat).map (fun i => m.signatures.coeff i 0)).sum ≠ 0 →
      (∀ i, i < m.C.toNat → 0 ≤ m.signatures.coeff i 0) →
      ∀ params, write_array P m params true true = .ok
        (.fin 1 :: (((List.range m.C.toNat).map (fun i => m.signatures.coeff i 0)).map
          (fun a => a / ((List.range m.C.toNat).map (fun i => m.signatures.coeff i 0)).sum)).map
            Val.fin)) :=
  single_signature_facts P m hv hS

end Single

/-! ## C4: composition of `log_prob` -/

section LogProb
variable {K : Type} [LinearOrderedField K]

theorem map_ok_iff {ε α β : Type} (x : Except ε α) (f : α → β) (b : β) :
    x.map f = .ok b ↔ ∃ a, x = .ok a ∧ f a = b := by
  cases x <;> simp [Except.map]

theorem log_prob_ok (P : Libm K) (m : model_sigfit K) (propto jacobian T_is_var : Bool)
    (params : List (Val K)) (v : Val K) :
    log_prob P m propto jacobian T_is_var params = .ok v ↔
      ∃ y probs d mn, reader_vector params 0 (size_t_pred (to_size_t m.S)) = .ok y ∧
        compute_probs m (simplex_constrain P y) = .ok probs ∧
        check_simplex probs = .ok () ∧
        dirichlet_log P propto T_is_var (simplex_constrain P y) (m.alpha.map Val.fin) = .ok d ∧
        multinomial_log P propto T_is_var m.counts probs = .ok mn ∧
        v = Val.add (Val.add d mn)
          (if jacobian = true then (simplex_constrain_lp P y (.fin 0)).2 else .fin 0) := by
  cases jacobian with
  | true =>
    simp only [log_prob, if_true, reader_simplex_constrain_lp, bind_ok_iff, pure, Except.pure,
      Except.ok.injEq]
    constructor
    · rintro ⟨r, ⟨y, hy, rfl⟩, probs, hp, _, hc, d, hd, mn, hmn, hv⟩
      simp only [simplex_constrain_lp, simplex_constrain_lp_loop_fst] at hp hd
      refine ⟨y, probs, d, mn, hy, hp, hc, hd, hmn, ?_⟩
      rw [← hv]; simp [vsum]
    · rintro ⟨y, probs, d, mn, hy, hp, hc, hd, hmn, hv⟩
      refine ⟨_, ⟨y, hy, rfl⟩, probs, ?_, (), hc, d, ?_, mn, hmn, ?_⟩
      · simpa only [simplex_constrain_lp, simplex_constrain_lp_loop_fst] using hp
      · simpa only [simplex_constrain_lp, simplex_constrain_lp_loop_fst] using hd
      · rw [hv]; simp [vsum]
  | false =>
    simp only [log_prob, Bool.false_eq_true, if_false, reader_simplex_constrain, bind_ok_iff,
      map_ok_iff, pure, Except.pure, Except.ok.injEq]
    constructor
    · rintro ⟨r, ⟨e, ⟨y, hy, rfl⟩, rfl⟩, probs, hp, _, hc, d, hd, mn, hmn, hv⟩
      refine ⟨y, probs, d, mn, hy, hp, hc, hd, hmn, ?_⟩
      rw [← hv]; simp [vsum]
    · rintro ⟨y, probs, d, mn, hy, hp, hc, hd, hmn, hv⟩
      refine ⟨_, ⟨_, ⟨y, hy, rfl⟩, rfl⟩, probs, hp, (), hc, d, hd, mn, hmn, ?_⟩
      rw [hv]; simp [vsum]

theorem vadd_sub_cancel_fin (a : K) (J : Val K) :
    Val.sub (Val.add (.fin a) J) (.fin a) = J := by
  cases J <;> simp [Val.sub, Val.add, Val.neg]

end LogProb

/-! ## C5: the constant terms -/

section Constants
variable {K : Type} [LinearOrderedField K]

theorem check_positive_ok (as : List K) (u : Unit) :
    check_positive (as.map Val.fin) = .ok u ↔ ∀ a ∈ as, 0 < a := by
  unfold check_positive
  split_ifs with h
  · simp only [true_iff]
    intro a ha
    have := List.all_eq_true.1 h (.fin a) (List.mem_map_of_mem _ ha)
    simpa using this
  · simp only [false_iff]
    intro hall
    apply h
    simp only [List.all_eq_true, List.mem_map]
    rintro _ ⟨a, ha, rfl⟩
    simpa using hall a ha

theorem check_nonnegative_ok (ns : List Int) (u : Unit) :
    check_nonnegative ns = .ok u ↔ ∀ n ∈ ns, 0 ≤ n := by
  unfold check_nonnegative
  split_ifs with h
  · simpa using h
  · simpa using h

theorem lgamma_fin_pos (P : Libm K) {a : K} (ha : 0 < a) :
    Val.lgamma P (.fin a) = .fin (P.lgamma a) := by
  simp [Val.lgamma, ha]

theorem foldl_sub_lgamma (P : Libm K) :
    ∀ (as : List K) (c : K), (∀ a ∈ as, 0 < a) →
      (as.map Val.fin).foldl (fun lp a => Val.sub lp (Val.lgamma P a)) (.fin c) =
        .fin (c - (as.map P.lgamma).sum) := by
  intro as
  induction as with
  | nil => intro c _; simp
  | cons a as ih =>
    intro c h
    have ha : 0 < a := h a (List.mem_cons_self _ _)
    simp only [List.map_cons, List.foldl_cons, lgamma_fin_pos P ha, Val.sub_fin_fin]
    rw [ih _ (fun b hb => h b (List.mem_cons_of_mem _ hb))]
    simp [sub_sub]

theorem foldl_add_ofInt :
    ∀ (ns : List Int) (c : K),
      ns.foldl (fun s n => Val.add s (ofInt n)) (.fin c) = .fin (c + ((ns.sum : Int) : K)) := by
  intro ns
  induction ns with
  | nil => intro c; simp
  | cons n ns ih =>
    intro c
    have h := ih (c + (n : K))
    simp only [ofInt] at h
    simp only [List.foldl_cons, ofInt, Val.add_fin_fin, h, List.sum_cons, Int.cast_add,
      add_assoc]

theorem foldl_sub_lgamma_counts (P : Libm K) :
    ∀ (ns : List Int) (c : K), (∀ n ∈ ns, 0 ≤ n) →
      ns.foldl (fun lp n => Val.sub lp (Val.lgamma P (Val.add (ofInt n) (.fin 1)))) (.fin c) =
        .fin (c - (ns.map (fun (n : Int) => P.lgamma ((n : K) + 1))).sum) := by
  intro ns
  induction ns with
  | nil => intro c _; simp
  | cons n ns ih =>
    intro c h
    have hn : (0 : K) < (n : K) + 1 := by
      have : (0 : K) ≤ (n : K) := by exact_mod_cast h n (List.mem_cons_self _ _)
      linarith
    have h2 := ih (c - P.lgamma ((n : K) + 1)) (fun b hb => h b (List.mem_cons_of_mem _ hb))
    simp only [ofInt, Val.add_fin_fin] at h2
    simp only [List.foldl_cons, ofInt, Val.add_fin_fin, lgamma_fin_pos P hn, Val.sub_fin_fin, h2]
    simp [sub_sub]

theorem dirichlet_log_ok (P : Libm K) (propto thetaVar : Bool) (theta : List (Val K))
    (as : List K) (d : Val K) :
    dirichlet_log P propto thetaVar theta (as.map Val.fin) = .ok d ↔
      theta.length = as.length ∧ (∀ a ∈ as, 0 < a) ∧ check_simplex theta = .ok () ∧
      d = Val.add
        (if include_summand propto false = true then .fin (log_dirichlet_normalizer P as)
         else .fin 0)
        (if include_summand propto thetaVar = true then
          vsum (List.zipWith (fun a t => multiply_log P (Val.sub a (.fin 1)) t)
            (as.map Val.fin) theta)
         else .fin 0) := by
  have hval : theta.length = as.length → (∀ a ∈ as, 0 < a) → check_simplex theta = .ok () →
      (if include_summand propto thetaVar = true then
          List.foldl Val.add
            (if include_summand propto false = true then
              List.foldl (fun lp a => Val.sub lp (Val.lgamma P a))
                (Val.add (.fin 0) (Val.lgamma P (vsum (List.map Val.fin as))))
                (List.map Val.fin as)
            else .fin 0)
            (List.zipWith (fun a t => multiply_log P (Val.sub a (.fin 1)) t)
              (List.map Val.fin as) theta)
        else
          if include_summand propto false = true then
            List.foldl (fun lp a => Val.sub lp (Val.lgamma P a))
              (Val.add (.fin 0) (Val.lgamma P (vsum (List.map Val.fin as))))
              (List.map Val.fin as)
          else .fin 0) =
      Val.add
        (if include_summand propto false = true then .fin (log_dirichlet_normalizer P as)
         else .fin 0)
        (if include_summand propto thetaVar = true then
          vsum (List.zipWith (fun a t => multiply_log P (Val.sub a (.fin 1)) t)
            (as.map Val.fin) theta)
         else .fin 0) := by
    intro hl hpos hc
    have hne : as ≠ [] := by
      rintro rfl
      obtain ⟨ps, rfl, hps, _⟩ := (check_simplex_ok theta ()).1 hc
      simp at hl; exact hps hl
    have hsum : 0 < as.sum := by
      cases as with
      | nil => exact absurd rfl hne
      | cons a as =>
        have h0 := hpos a (List.mem_cons_self _ _)
        have h1 : 0 ≤ as.sum :=
          List.sum_nonneg (fun b hb => le_of_lt (hpos b (List.mem_cons_of_mem _ hb)))
        simp only [List.sum_cons]; linarith
    by_cases h1 : include_summand propto false = true <;>
      by_cases h2 : include_summand propto thetaVar = true <;>
      simp only [h1, h2, if_true, if_false, vsum_map_fin, vzero_add, vadd_zero,
        lgamma_fin_pos P hsum, foldl_sub_lgamma P as _ hpos, foldl_add_eq,
        log_dirichlet_normalizer, Bool.false_eq_true]
  simp only [dirichlet_log, bind_ok_iff, check_size_match_ok, check_positive_ok, pure,
    Except.pure, Except.ok.injEq, List.length_map]
  constructor
  · rintro ⟨_, hl, _, hpos, _, hc, hd⟩
    exact ⟨hl, hpos, hc, by rw [← hd, hval hl hpos hc]⟩
  · rintro ⟨hl, hpos, hc, hd⟩
    exact ⟨(), hl, (), hpos, (), hc, by rw [hd, hval hl hpos hc]⟩

end Constants

section Constants
variable {K : Type} [LinearOrderedField K]

theorem multinomial_log_ok (P : Libm K) (propto thetaVar : Bool) (ns : List Int)
    (theta : List (Val K)) (mn : Val K) :
    multinomial_log P propto thetaVar ns theta = .ok mn ↔
      (∀ n ∈ ns, 0 ≤ n) ∧ check_simplex theta = .ok () ∧ ns.length = theta.length ∧
      mn = Val.add
        (if include_summand propto false = true then .fin (log_multinomial_coefficient P ns)
         else .fin 0)
        (if include_summand propto thetaVar = true then
          vsum (List.zipWith (fun n t => multiply_log P (ofInt n) t) ns theta)
         else .fin 0) := by
  have hval : (∀ n ∈ ns, 0 ≤ n) →
      (if include_summand propto thetaVar = true then
          List.foldl Val.add
            (if include_summand propto false = true then
              Val.add
                (List.foldl
                  (fun lp n => Val.sub lp (Val.lgamma P (Val.add (ofInt n) (.fin 1))))
                  (.fin 0) ns)
                (Val.lgamma P (List.foldl (fun s n => Val.add s (ofInt n)) (.fin 1) ns))
            else .fin 0)
            (List.zipWith (fun n t => multiply_log P (ofInt n) t) ns theta)
        else
          if include_summand propto false = true then
            Val.add
              (List.foldl
                (fun lp n => Val.sub lp (Val.lgamma P (Val.add (ofInt n) (.fin 1))))
                (.fin 0) ns)
              (Val.lgamma P (List.foldl (fun s n => Val.add s (ofInt n)) (.fin 1) ns))
          else .fin 0) =
      Val.add
        (if include_summand propto false = true then .fin (log_multinomial_coefficient P ns)
         else .fin 0)
        (if include_summand propto thetaVar = true then
          vsum (List.zipWith (fun n t => multiply_log P (ofInt n) t) ns theta)
         else .fin 0) := by
    intro hnn
    have hsum : (0 : K) < 1 + ((ns.sum : Int) : K) := by
      have : (0 : Int) ≤ ns.sum := List.sum_nonneg hnn
      have : (0 : K) ≤ ((ns.sum : Int) : K) := by exact_mod_cast this
      linarith
    have hc : (0 : K) - (ns.map (fun (n : Int) => P.lgamma ((n : K) + 1))).sum +
        P.lgamma (1 + ((ns.sum : Int) : K)) = log_multinomial_coefficient P ns := by
      unfold log_multinomial_coefficient; ring
    by_cases h1 : include_summand propto false = true <;>
      by_cases h2 : include_summand propto thetaVar = true <;>
      simp only [h1, h2, if_true, if_false, vzero_add, vadd_zero, foldl_add_ofInt,
        lgamma_fin_pos P hsum, foldl_sub_lgamma_counts P ns _ hnn, foldl_add_eq,
        Val.add_fin_fin, hc, Bool.false_eq_true]
  simp only [multinomial_log, bind_ok_iff, check_size_match_ok, check_nonnegative_ok, pure,
    Except.pure, Except.ok.injEq]
  constructor
  · rintro ⟨_, hnn, _, hc, _, hl, hd⟩
    exact ⟨hnn, hc, hl, by rw [← hd, hval hnn]⟩
  · rintro ⟨hnn, hc, hl, hd⟩
    exact ⟨(), hnn, (), hc, (), hl, by rw [hd, hval hnn]⟩

theorem vadd_sub_cancel_left_fin (a c : K) :
    Val.sub (Val.add (Val.fin a) (.fin c)) (.fin a) = (.fin c : Val K) := by
  simp

end Constants

/-! ## C7: a zero probability with a non-zero count -/

section ScenarioD
variable {K : Type} [LinearOrderedField K]

theorem mem_zipWith_elim {α β γ : Type} (f : α → β → γ) (l₁ : List α) (l₂ : List β) (z : γ)
    (h : z ∈ List.zipWith f l₁ l₂) : ∃ x ∈ l₁, ∃ y ∈ l₂, f x y = z := by
  obtain ⟨i, hi⟩ := List.mem_iff_getElem?.1 h
  obtain ⟨x, y, hx, hy, hxy⟩ := List.getElem?_zipWith_eq_some.1 hi
  exact ⟨x, List.mem_iff_getElem?.2 ⟨i, hx⟩, y, List.mem_iff_getElem?.2 ⟨i, hy⟩, hxy⟩

theorem vsum_fin_or_ninf : ∀ (xs : List (Val K)),
    (∀ v ∈ xs, v = Val.ninf ∨ ∃ a, v = Val.fin a) →
      (vsum xs = Val.ninf ∨ ∃ a, vsum xs = Val.fin a) := by
  intro xs
  induction xs with
  | nil => intro _; exact Or.inr ⟨0, rfl⟩
  | cons x xs ih =>
    intro h
    rw [vsum_cons]
    rcases h x (List.mem_cons_self _ _) with hx | ⟨a, hx⟩ <;>
      rcases ih (fun v hv => h v (List.mem_cons_of_mem _ hv)) with hs | ⟨b, hs⟩ <;>
      rw [hx, hs] <;> simp [Val.add]

theorem vsum_eq_ninf : ∀ (xs : List (Val K)),
    (∀ v ∈ xs, v = Val.ninf ∨ ∃ a, v = Val.fin a) → Val.ninf ∈ xs → vsum xs = Val.ninf := by
  intro xs
  induction xs with
  | nil => intro _ h; simp at h
  | cons x xs ih =>
    intro h hmem
    rw [vsum_cons]
    have hrest := vsum_fin_or_ninf xs (fun v hv => h v (List.mem_cons_of_mem _ hv))
    rcases List.mem_cons.1 hmem with hx | hx
    · rw [← hx]
      rcases hrest with hs | ⟨b, hs⟩ <;> rw [hs] <;> simp [Val.add]
    · rw [ih (fun v hv => h v (List.mem_cons_of_mem _ hv)) hx]
      rcases h x (List.mem_cons_self _ _) with hx | ⟨a, hx⟩ <;> rw [hx] <;> simp [Val.add]

theorem vsum_all_fin : ∀ (xs : List (Val K)),
    (∀ v ∈ xs, ∃ a, v = Val.fin a) → ∃ a, vsum xs = Val.fin a := by
  intro xs h
  obtain ⟨as, rfl⟩ := exists_map_fin xs h
  exact ⟨_, vsum_map_fin as⟩

theorem log1p_exp_fin (P : Libm K) (hexp : ∀ a, 0 < P.exp a) (a : K) :
    ∃ b, log1p_exp P (.fin a) = .fin b := by
  have h1 : (0 : K) < 1 + P.exp (-a) := by have := hexp (-a); linarith
  have h2 : (0 : K) < 1 + P.exp a := by have := hexp a; linarith
  unfold log1p_exp log1p
  split_ifs
  · exact ⟨_, by simp [Val.log_fin_pos P h1]; rfl⟩
  · exact ⟨_, by simp [Val.log_fin_pos P h2]; rfl⟩

theorem simplex_constrain_lp_loop_fin (P : Libm K) (hexp : ∀ a, 0 < P.exp a) :
    ∀ (ys : List K) (s l : K), 0 < s →
      ∃ j, (simplex_constrain_lp_loop P (.fin s) (.fin l) (ys.map Val.fin)).2 = .fin j := by
  intro ys
  induction ys with
  | nil => intro s l _; exact ⟨l, rfl⟩
  | cons y ys ih =>
    intro s l hs
    have hz0 := inv_logit_fin_pos P hexp (y + -P.log ((ys.length : K) + 1))
    have hz1 := inv_logit_fin_lt_one P hexp (y + -P.log ((ys.length : K) + 1))
    obtain ⟨b1, hb1⟩ := log1p_exp_fin P hexp (-(y + -P.log ((ys.length : K) + 1)))
    obtain ⟨b2, hb2⟩ := log1p_exp_fin P hexp (y + -P.log ((ys.length : K) + 1))
    set z := 1 / (1 + P.exp (-(y + -P.log ((ys.length : K) + 1)))) with hz
    have hrest : 0 < s - s * z := by nlinarith
    obtain ⟨j, hj⟩ := ih (s - s * z) (l + P.log s - b1 - b2) hrest
    refine ⟨j, ?_⟩
    simp only [List.map_cons, simplex_constrain_lp_loop, List.length_map, log_count_fin,
      Val.neg_fin, Val.add_fin_fin, Val.sub_fin_fin, inv_logit_fin P hexp, Val.mul_fin_fin,
      ← hz, Val.log_fin_pos P hs, hb1, hb2, hj]

end ScenarioD

section ScenarioD
variable {K : Type} [LinearOrderedField K]

theorem multiply_log_fin_pos (P : Libm K) (a : K) {x : K} (hx : 0 < x) :
    multiply_log P (.fin a) (.fin x) = .fin (a * P.log x) := by
  simp [multiply_log, ne_of_gt hx, Val.log_fin_pos P hx]

theorem multiply_log_count (P : Libm K) {n : Int} (hn : 0 ≤ n) {p : K} (hp : 0 ≤ p) :
    (multiply_log P (ofInt n) (.fin p) = Val.ninf ∨
      ∃ a, multiply_log P (ofInt n) (.fin p) = Val.fin a) ∧
    (p = 0 → 0 < n → multiply_log P (ofInt n) (.fin p) = Val.ninf) := by
  rcases lt_or_eq_of_le hp with hp' | hp'
  · refine ⟨Or.inr ⟨_, multiply_log_fin_pos P _ hp'⟩, fun h => absurd h (ne_of_gt hp')⟩
  · subst hp'
    rcases lt_or_eq_of_le hn with hn' | hn'
    · have hnK : (0 : K) < (n : K) := by exact_mod_cast hn'
      have : multiply_log P (ofInt n) (.fin (0 : K)) = Val.ninf := by
        simp [multiply_log, ofInt, ne_of_gt hnK, Val.mul, Val.infOfSign, hnK, not_lt.2 (le_of_lt hnK)]
      exact ⟨Or.inl this, fun _ _ => this⟩
    · subst hn'
      refine ⟨Or.inr ⟨0, by simp [multiply_log, ofInt]⟩, fun _ h => absurd h (lt_irrefl _)⟩

end ScenarioD

section ScenarioD
variable {K : Type} [LinearOrderedField K]

/-- On a valid model with positive concentrations and non-negative counts, a zero entry of
`probs` under a positive count makes `log_prob` return minus infinity, provided the
likelihood term is kept. -/
theorem log_prob_ninf (P : Libm K) (hexp : ∀ a, 0 < P.exp a)
    (m : model_sigfit K) (hv : m.Valid) (hα : ∀ a ∈ m.alpha, 0 < a)
    (hn : ∀ n ∈ m.counts, 0 ≤ n) (propto jacobian T_is_var : Bool)
    (hT : propto = false ∨ T_is_var = true)
    (y : List K) (hy : (y.length : Int) = m.S - 1) (ps : List K)
    (hprobs : compute_probs m (simplex_constrain P (y.map Val.fin)) = .ok (ps.map Val.fin))
    (hsimplex : check_simplex (ps.map Val.fin) = .ok ())
    (i : Nat) (n : Int) (hi : ps[i]? = some 0) (hc : m.counts[i]? = some n) (hpos : 0 < n) :
    log_prob P m propto jacobian T_is_var (y.map Val.fin) = .ok Val.ninf := by
  have hS := hv.S_pos
  obtain ⟨xs, hx1, hx2, hx3, hx4⟩ := simplex_constrain_loop_fin P hexp y 1 one_pos
  have he : simplex_constrain P (y.map Val.fin) = xs.map Val.fin := hx1
  have hread : reader_vector (y.map Val.fin) 0 (size_t_pred (to_size_t m.S)) =
      .ok (y.map Val.fin) := by
    have : size_t_pred (to_size_t m.S) = (y.map Val.fin).length := by
      rw [to_size_t_of_nonneg (by omega), size_t_pred_of_pos (by omega)]
      simp; omega
    rw [this, reader_vector_all]
  -- the exposures are a simplex
  have hchk_e : check_simplex (xs.map Val.fin) = .ok () := by
    rw [check_simplex_ok]
    refine ⟨xs, rfl, ?_, ?_, fun p hp => le_of_lt (hx3 p hp)⟩
    · intro h; rw [h] at hx2; simp at hx2
    · rw [hx4]; simp [CONSTRAINT_TOLERANCE]
  have hlen_e : (xs.map Val.fin).length = m.alpha.length := by
    rw [List.length_map, hx2, hv.alpha_len]; omega
  -- probs is non-negative and as long as counts
  have hps_nn : ∀ p ∈ ps, 0 ≤ p := by
    obtain ⟨ps', h1, _, _, h4⟩ := (check_simplex_ok _ ()).1 hsimplex
    rw [← map_fin_injective h1] at h4; exact h4
  have hlen_p : m.counts.length = (ps.map Val.fin).length := by
    obtain ⟨mixed, _, h2, h3⟩ := (compute_probs_ok m _ _).1 hprobs
    rw [h3, hv.counts_len, h2]; simp [divide]
  rw [log_prob_ok]
  rw [he] at hprobs
  refine ⟨y.map Val.fin, ps.map Val.fin, _, _, hread, by rw [he]; exact hprobs, hsimplex,
    by rw [he]; exact (dirichlet_log_ok P _ _ _ _ _).2 ⟨hlen_e, hα, hchk_e, rfl⟩,
    (multinomial_log_ok P _ _ _ _ _).2 ⟨hn, hsimplex, hlen_p, rfl⟩, ?_⟩
  -- the Dirichlet part is finite
  have hD : ∃ a, (if include_summand propto T_is_var = true then
      vsum (List.zipWith (fun a t => multiply_log P (Val.sub a (.fin 1)) t)
        (m.alpha.map Val.fin) (xs.map Val.fin)) else Val.fin 0) = Val.fin a := by
    split_ifs
    · apply vsum_all_fin
      intro v hvm
      obtain ⟨a, ha, t, ht, hat⟩ := mem_zipWith_elim _ _ _ _ hvm
      obtain ⟨a', _, rfl⟩ := List.mem_map.1 ha
      obtain ⟨x, hx, rfl⟩ := List.mem_map.1 ht
      exact ⟨(a' - 1) * P.log x, by
        rw [← hat, Val.sub_fin_fin, multiply_log_fin_pos P _ (hx3 x hx)]⟩
    · exact ⟨0, rfl⟩
  have hc1 : ∃ a, (if include_summand propto false = true then
      Val.fin (log_dirichlet_normalizer P m.alpha) else Val.fin 0) = Val.fin a := by
    split_ifs
    · exact ⟨_, rfl⟩
    · exact ⟨_, rfl⟩
  have hc2 : ∃ a, (if include_summand propto false = true then
      Val.fin (log_multinomial_coefficient P m.counts) else Val.fin 0) = Val.fin a := by
    split_ifs
    · exact ⟨_, rfl⟩
    · exact ⟨_, rfl⟩
  -- the multinomial part is minus infinity
  have hinc : include_summand propto T_is_var = true := by
    rcases hT with h | h <;> simp [include_summand, h]
  have hM : vsum (List.zipWith (fun n t => multiply_log P (ofInt n) t) m.counts
      (ps.map Val.fin)) = Val.ninf := by
    apply vsum_eq_ninf
    · intro v hvm
      obtain ⟨n', hn', t, ht, hnt⟩ := mem_zipWith_elim _ _ _ _ hvm
      obtain ⟨p, hp, rfl⟩ := List.mem_map.1 ht
      rw [← hnt]
      exact (multiply_log_count P (hn n' hn') (hps_nn p hp)).1
    · rw [List.mem_iff_getElem?]
      refine ⟨i, List.getElem?_zipWith_eq_some.2 ⟨n, .fin 0, hc, ?_, ?_⟩⟩
      · rw [List.getElem?_map, hi]; rfl
      · exact (multiply_log_count P (le_of_lt hpos) (le_refl (0 : K))).2 rfl hpos
  have hJ : ∃ j, (if jacobian = true then (simplex_constrain_lp P (y.map Val.fin) (.fin 0)).2
      else Val.fin 0) = Val.fin j := by
    split_ifs
    · exact simplex_constrain_lp_loop_fin P hexp y 1 0 one_pos
    · exact ⟨0, rfl⟩
  obtain ⟨d', hd'⟩ := hD
  obtain ⟨c1, hc1⟩ := hc1
  obtain ⟨c2, hc2⟩ := hc2
  obtain ⟨j, hj⟩ := hJ
  rw [hd', hc1, hc2, hj, if_pos hinc, hM]
  simp [Val.add]

end ScenarioD

/-! ## C2: round trip of the simplex transform -/

section RoundTrip
variable {K : Type} [LinearOrderedField K]

theorem inv_logit_logit (P : Libm K) (hlog : ∀ w, 0 < w → P.exp (P.log w) = w)
    (hneg : ∀ a, P.exp (-a) = (P.exp a)⁻¹) {z : K} (h0 : 0 < z) (h1 : z < 1) :
    1 / (1 + P.exp (-(P.log (z / (1 - z))))) = z := by
  have h2 : 0 < 1 - z := by linarith
  have hw : 0 < z / (1 - z) := div_pos h0 h2
  rw [hneg, hlog _ hw]
  field_simp

theorem logit_fin (P : Libm K) {z : K} (h0 : 0 < z) (h1 : z < 1) :
    logit P (.fin z) = .fin (P.log (z / (1 - z))) := by
  have h2 : 0 < 1 - z := by linarith
  have hw : 0 < z / (1 - z) := div_pos h0 h2
  simp only [logit, Val.sub_fin_fin, Val.div_fin_fin z (ne_of_gt h2), Val.log_fin_pos P hw]

theorem simplex_roundtrip_loop (P : Libm K) (hexp : ∀ a, 0 < P.exp a)
    (hlog : ∀ w, 0 < w → P.exp (P.log w) = w) (hneg : ∀ a, P.exp (-a) = (P.exp a)⁻¹) :
    ∀ (x : List K), x ≠ [] → (∀ a ∈ x, 0 < a) →
      ∃ ys : List (Val K), simplex_free_loop P (x.map Val.fin) = (ys, .fin x.sum) ∧
        ys.length + 1 = x.length ∧
        simplex_constrain_loop P (.fin x.sum) ys = x.map Val.fin := by
  intro x
  induction x with
  | nil => intro h; exact absurd rfl h
  | cons a rest ih =>
    intro _ hpos
    have ha : 0 < a := hpos a (List.mem_cons_self _ _)
    cases rest with
    | nil =>
      exact ⟨[], by simp [simplex_free_loop], rfl, by simp [simplex_constrain_loop]⟩
    | cons b rest' =>
      obtain ⟨ys', h1, h2, h3⟩ := ih (by simp) (fun c hc => hpos c (List.mem_cons_of_mem _ hc))
      have hS : 0 < (b :: rest').sum := by
        have hb : 0 < b := hpos b (by simp)
        have : 0 ≤ rest'.sum :=
          List.sum_nonneg (fun c hc => le_of_lt (hpos c (by simp [hc])))
        simp only [List.sum_cons]; linarith
      set rest := b :: rest' with hrest
      have hz0 : 0 < a / (rest.sum + a) := by positivity
      have hz1 : a / (rest.sum + a) < 1 := by
        rw [div_lt_one (by positivity)]; linarith
      have hn : (rest'.length : K) + 1 = ((ys'.length : K) + 1) := by
        have : ys'.length = rest'.length := by simpa [hrest] using h2
        rw [this]
      refine ⟨.fin (P.log (a / (rest.sum + a) / (1 - a / (rest.sum + a))) +
          P.log ((rest'.length : K) + 1)) :: ys', ?_, ?_, ?_⟩
      · have hfree : simplex_free_loop P (List.map Val.fin (a :: rest)) =
            (Val.add (logit P (Val.div (.fin a) (Val.add (simplex_free_loop P
                (rest.map Val.fin)).2 (.fin a))))
              (Val.log P (ofInt (((rest.map Val.fin).length : Nat) : Int))) ::
              (simplex_free_loop P (rest.map Val.fin)).1,
             Val.add (simplex_free_loop P (rest.map Val.fin)).2 (.fin a)) := by
          simp [hrest, simplex_free_loop]
        rw [hfree, h1]
        have hlen : ((rest.map Val.fin).length : Nat) = rest'.length + 1 := by simp [hrest]
        simp only [hlen, log_count_fin, Val.add_fin_fin,
          Val.div_fin_fin a (ne_of_gt (show 0 < rest.sum + a by positivity)),
          logit_fin P hz0 hz1, List.sum_cons]
        rw [add_comm a rest.sum]
      · simp [h2]
      · simp only [simplex_constrain_loop, log_count_fin, Val.sub_fin_fin, hn,
          add_sub_cancel_right, inv_logit_fin P hexp, inv_logit_logit P hlog hneg hz0 hz1,
          Val.mul_fin_fin, List.sum_cons, List.map_cons]
        have e1 : (a + rest.sum) * (a / (rest.sum + a)) = a := by field_simp; ring
        rw [e1, add_sub_cancel_left, h3]

end RoundTrip

section RoundTrip
variable {K : Type} [LinearOrderedField K]

end RoundTrip

/-! ## Concrete models and closed instances -/

section Concrete
variable {K : Type} [LinearOrderedField K]

theorem scenario_A_valid (K : Type) [LinearOrderedField K] : (scenario_A K).Valid where
  C_pos := by simp [scenario_A]
  S_pos := by simp [scenario_A]
  rows_eq := rfl
  cols_eq := rfl
  counts_len := rfl
  alpha_len := rfl
  alpha_nonneg := by simp [scenario_A]
  num_params := rfl

theorem single_signature_model_valid (col : List K) (counts : List Int) (a : K)
    (hcol : col ≠ []) (hlen : counts.length = col.length) (ha : 0 ≤ a) :
    (single_signature_model col counts a).Valid where
  C_pos := by
    have : 0 < col.length := List.length_pos.2 hcol
    simp [single_signature_model]; omega
  S_pos := by simp [single_signature_model]
  rows_eq := by simp [single_signature_model]
  cols_eq := rfl
  counts_len := by simp [single_signature_model, hlen]
  alpha_len := rfl
  alpha_nonneg := by simp [single_signature_model, ha]
  num_params := rfl

end Concrete

section Closed

end Closed

section Closed
variable {K : Type} [LinearOrderedField K]

/-- The value of `log_prob` on a valid single-signature model with positive concentration
and non-negative counts. -/
theorem log_prob_single_eval (P : Libm K) (m : model_sigfit K) (hv : m.Valid) (hS : m.S = 1)
    (hα : ∀ a ∈ m.alpha, 0 < a) (hn : ∀ n ∈ m.counts, 0 ≤ n) (ps : List K)
    (hps : compute_probs m [.fin 1] = .ok (ps.map Val.fin))
    (hsimplex : check_simplex (ps.map Val.fin) = .ok ())
    (propto jacobian T_is_var : Bool) (params : List (Val K)) :
    log_prob P m propto jacobian T_is_var params = .ok
      (Val.add
        (Val.add
          (if include_summand propto false = true then .fin (log_dirichlet_normalizer P m.alpha)
           else .fin 0)
          (if include_summand propto T_is_var = true then
            vsum (List.zipWith (fun a t => multiply_log P (Val.sub a (.fin 1)) t)
              (m.alpha.map Val.fin) [.fin 1])
           else .fin 0))
        (Val.add
          (if include_summand propto false = true then
            .fin (log_multinomial_coefficient P m.counts)
           else .fin 0)
          (if include_summand propto T_is_var = true then
            vsum (List.zipWith (fun n t => multiply_log P (ofInt n) t) m.counts
              (ps.map Val.fin))
           else .fin 0))) := by
  have hread : reader_vector params 0 (size_t_pred (to_size_t m.S)) = .ok [] := by
    simp [hS, to_size_t, size_t_pred, reader_vector]
  have hsc : simplex_constrain P ([] : List (Val K)) = [.fin 1] := rfl
  have hchk : check_simplex ([.fin 1] : List (Val K)) = .ok () := by
    rw [check_simplex_ok]
    exact ⟨[1], rfl, by simp, by simp [CONSTRAINT_TOLERANCE], by simp⟩
  have hlen_p : m.counts.length = (ps.map Val.fin).length := by
    obtain ⟨mixed, _, h2, h3⟩ := (compute_probs_ok m _ _).1 hps
    rw [h3, hv.counts_len, h2]; simp [divide]
  have hlen_a : ([.fin 1] : List (Val K)).length = m.alpha.length := by
    rw [hv.alpha_len, hS]; rfl
  rw [log_prob_ok]
  refine ⟨[], ps.map Val.fin, _, _, hread, by rw [hsc]; exact hps, hsimplex,
    by rw [hsc]; exact (dirichlet_log_ok P _ _ _ _ _).2 ⟨hlen_a, hα, hchk, rfl⟩,
    (multinomial_log_ok P _ _ _ _ _).2 ⟨hn, hsimplex, hlen_p, rfl⟩, ?_⟩
  have hJ : (if jacobian = true then (simplex_constrain_lp P ([] : List (Val K)) (.fin 0)).2
      else Val.fin 0) = Val.fin 0 := by
    split_ifs <;> rfl
  rw [hJ, vadd_zero]

theorem compute_probs_halves :
    compute_probs (single_signature_model ([1, 1] : List ℝ) [1, 0] 1) [.fin 1] =
      .ok (([1 / 2, 1 / 2] : List ℝ).map Val.fin) := by
  have h := compute_probs_one (single_signature_model ([1, 1] : List ℝ) [1, 0] 1)
    (single_signature_model_valid _ _ _ (by simp) rfl (by norm_num)) rfl
    (by simp [single_signature_model, List.range_succ])
  rw [h]
  simp [single_signature_model, List.range_succ]
  norm_num

theorem check_simplex_halves :
    check_simplex (([1 / 2, 1 / 2] : List ℝ).map Val.fin) = .ok () := by
  rw [check_simplex_ok]
  exact ⟨[1 / 2, 1 / 2], rfl, by simp, by norm_num [CONSTRAINT_TOLERANCE], by
    intro p hp; simp at hp; subst hp; norm_num⟩

end Closed

section Closed
variable {K : Type} [LinearOrderedField K]

/-- The result of `log_prob` on a single-signature model whose concentration is not positive: the
domain error of `check_positive` in `dirichlet_log`. -/
theorem log_prob_single_not_positive (P : Libm K) (m : model_sigfit K) (hS : m.S = 1)
    (ps : List K) (hps : compute_probs m [.fin 1] = .ok (ps.map Val.fin))
    (hsimplex : check_simplex (ps.map Val.fin) = .ok ())
    (hlen : m.alpha.length = 1) (hα : ¬ ∀ a ∈ m.alpha, 0 < a)
    (propto jacobian T_is_var : Bool) (params : List (Val K)) :
    log_prob P m propto jacobian T_is_var params = .error .domain_error := by
  have hpos : check_positive (m.alpha.map Val.fin) = .error .domain_error := by
    cases h : check_positive (m.alpha.map Val.fin) with
    | ok u => exact absurd ((check_positive_ok m.alpha u).1 h) hα
    | error e =>
      unfold check_positive at h
      split_ifs at h
      rw [← Except.error.inj h]
  have hd : dirichlet_log P propto T_is_var [.fin 1] (m.alpha.map Val.fin) =
      .error .domain_error := by
    simp [dirichlet_log, check_size_match, hlen, hpos, bind, Except.bind]
  cases jacobian <;>
    simp [log_prob, hS, reader_simplex_constrain_lp_one, reader_simplex_constrain_one, hps,
      hsimplex, hd, bind, Except.bind, Except.map]

theorem compute_probs_one_zero (a : ℝ) :
    compute_probs (single_signature_model ([1, 0] : List ℝ) [0, 1] a) [.fin 1] =
      .ok (([1, 0] : List ℝ).map Val.fin) := by
  simp [compute_probs, multiply, single_signature_model, check_size_match, divide, vsum,
    List.range_succ, Val.div, bind, Except.bind, pure, Except.pure]

theorem check_simplex_one_zero : check_simplex (([1, 0] : List ℝ).map Val.fin) = .ok () := by
  rw [check_simplex_ok]
  exact ⟨[1, 0], rfl, by simp, by norm_num [CONSTRAINT_TOLERANCE], by
    intro p hp; simp at hp; rcases hp with rfl | rfl <;> norm_num⟩

end Closed

section Closed

/-- The output of `write_array` on the single-signature model with column `[1, 1]`. -/
theorem write_array_halves (P : Libm ℝ) (params : List (Val ℝ)) :
    write_array P (single_signature_model ([1, 1] : List ℝ) [1, 0] 1) params true true =
      .ok [.fin 1, .fin (1 / 2), .fin (1 / 2)] := by
  have h := (single_signature_facts P (single_signature_model ([1, 1] : List ℝ) [1, 0] 1)
    (single_signature_model_valid _ _ _ (by simp) rfl (by norm_num)) rfl).2.2.2.2.2
    (by simp [single_signature_model, List.range_succ])
    (by intro i hi; simp [single_signature_model] at hi ⊢
        interval_cases i <;> simp) params
  rw [h]
  simp [single_signature_model, List.range_succ]
  norm_num

/-- C8 at the single-signature model with column `[1, 1]`. -/
theorem single_signature_scenario_witness :
    (single_signature_model ([1, 1] : List ℝ) [1, 0] 1).num_params_r = 0 ∧
    (∀ params, write_array (Libm.mk Real.exp Real.log (fun a => Real.log (Real.Gamma a)))
      (single_signature_model ([1, 1] : List ℝ) [1, 0] 1) params false false = .ok [.fin 1]) := by
  have h := single_signature_scenario
    (Libm.mk Real.exp Real.log (fun a => Real.log (Real.Gamma a)))
    (single_signature_model ([1, 1] : List ℝ) [1, 0] 1)
    (single_signature_model_valid _ _ _ (by simp) rfl (by norm_num)) rfl
  exact ⟨h.1, h.2.2.2.1⟩

/-- C9 at scenario A: the four names; the suffix of index 10 is the decimal numeral `10`. -/
theorem constrained_param_names_default_witness :
    constrained_param_names (scenario_A ℝ) [] true true =
      ["exposures.1", "exposures.2", "probs.1", "probs.2"] ∧
    "exposures" ++ "." ++ toString (9 + 1) = "exposures.10" :=
  ⟨(constrained_param_names_default (scenario_A ℝ) (scenario_A_valid ℝ)).1.trans (by decide),
    by decide⟩

/-- C10, counterexample.  On the single-signature model with column `[1, 1]` (`S = 1`,
`C = 2`) and the default flags, `write_array` succeeds and `unconstrained_param_names`
appends the one name `probs.1`, while the unconstrained parameter vector has length
`S - 1 = 0`. -/
theorem param_names_alignment_counterexample :
    write_array (Libm.mk Real.exp Real.log (fun a => Real.log (Real.Gamma a)))
      (single_signature_model ([1, 1] : List ℝ) [1, 0] 1) [] true true =
      .ok [.fin 1, .fin (1 / 2), .fin (1 / 2)] ∧
    unconstrained_param_names (single_signature_model ([1, 1] : List ℝ) [1, 0] 1) [] true true =
      ["probs.1"] ∧
    (single_signature_model ([1, 1] : List ℝ) [1, 0] 1).S - 1 = 0 ∧
    (single_signature_model ([1, 1] : List ℝ) [1, 0] 1).num_params_r = 0 :=
  ⟨write_array_halves _ _, by decide, rfl, rfl⟩

/-- C10 as amended, at the single-signature model with column `[1, 1]` and the default
flags: three constrained names for three values, one unconstrained name. -/
theorem param_names_alignment_witness :
    (constrained_param_names (single_signature_model ([1, 1] : List ℝ) [1, 0] 1) [] true
      true).length = 3 ∧
    (unconstrained_param_names (single_signature_model ([1, 1] : List ℝ) [1, 0] 1) [] true
      true).length = 1 := by
  have h := param_names_alignment (Libm.mk Real.exp Real.log (fun a => Real.log (Real.Gamma a)))
    (single_signature_model ([1, 1] : List ℝ) [1, 0] 1)
    (single_signature_model_valid _ _ _ (by simp) rfl (by norm_num)) []
    [.fin 1, .fin (1 / 2), .fin (1 / 2)] [] true true (write_array_halves _ _)
  exact ⟨by simpa using h.1 (Or.inl rfl), by simpa [single_signature_model] using h.2.1⟩

end Closed

section Closed

/-- C6 at the data of scenario A (construction succeeds) and at the same data with
`alpha = [1, -1]` (construction fails). -/
theorem ctor_body_validation_witness :
    (∃ m : model_sigfit ℝ,
      ctor_body (data_context 2 2 ([1, 0, 0, 1] : List ℝ) [10, 0] [1, 1]) = .ok m ∧
      m.C = 2 ∧ m.S = 2 ∧ m.counts = [10, 0] ∧ m.alpha = [1, 1] ∧ m.num_params_r = 1) ∧
    (∃ e, ctor_body (data_context 2 2 ([1, 0, 0, 1] : List ℝ) [10, 0] [1, -1]) = .error e) := by
  constructor
  · obtain ⟨m, h1, h2, h3, h4, h5, _, _, _, h9⟩ :=
      (ctor_body_validation (data_context 2 2 ([1, 0, 0, 1] : List ℝ) [10, 0] [1, 1])).2.2.2.2
        2 2 (by norm_num) (by norm_num) (by simp [data_context]) (by simp [data_context])
        (by simp [data_context]) (by simp [data_context]) (by simp [data_context])
        (by simp [data_context]) (by simp [data_context]) (by simp [data_context])
        (by simp [data_context]) (by simp [data_context]) (by simp [data_context])
        (by simp [data_context]) (by simp [data_context]) (by simp [data_context])
        (by simp [data_context]) (by simp [data_context])
    exact ⟨m, h1, h2, h3, by simpa [data_context] using h4, by simpa [data_context] using h5,
      by simpa using h9⟩
  · exact (ctor_body_validation (data_context 2 2 ([1, 0, 0, 1] : List ℝ) [10, 0] [1, -1])).2.2.1
      2 1 (-1) (by simp [data_context]) (by norm_num) (by simp [data_context]) (by norm_num)

end Closed

end Sigfit
